import Mathlib

/-!
# SimpleAVL: a verification development

Shallow embedding of `SimpleAVL.cpp` (an AVL tree with cached heights) and proofs of
its structural properties.

Modelling conventions.

* A value of `AvlNode α` stands for an `AvlNode<T>*`: `nil` is `nullptr`, `node l r d h`
  is a pointer to a node whose fields are `left = l`, `right = r`, `data = d`,
  `height = h`.  The tree is uniquely owned (no aliasing), so in-place updates of the
  fields are rendered as building a new value.
* The cached `height` field is an `int` in the source; it is modelled by `Int`, and the
  only arithmetic on it, `max(a, b) + 1` and a difference of two heights, is exact in the
  model.  On a tree with the height-cache invariant a cached height is the true height of
  a subtree, which is bounded by the number of nodes, so the machine range plays no role.
  Results about trees with arbitrary cached heights that depend on this arithmetic carry
  the hypothesis that the values involved are representable (`FitsInt`, `HeightsWithin`),
  so that no signed overflow occurs in the source.
* A function that dereferences its argument without a null test fails (`none`) on `nil`.
  Functions that may reach such a dereference return `Option`.
* `assert` failures (only in `checkDepth`) are also rendered as `none`.
* Keys are compared with `<` only, as in the source.
-/

namespace SimpleAVL

/-- A pointer to an AVL node (`nil` is the null pointer). Field order as in the source. -/
inductive AvlNode (α : Type) where
  | nil : AvlNode α
  | node (left right : AvlNode α) (data : α) (height : Int) : AvlNode α
  deriving DecidableEq

open AvlNode

variable {α : Type}

/-- The constructor `AvlNode(U&& value)`: no children, cached height 1. -/
def mk (value : α) : AvlNode α := node nil nil value 1

/-- Lookup, lines 33-45. Returns the pointer to the matching node, or `nil`. -/
def find [LT α] [DecidableRel (fun a b : α => a < b)] : AvlNode α → α → AvlNode α
  | nil, _ => nil
  | node l r d h, value =>
    if d < value then find r value
    else if value < d then find l value
    else node l r d h

/-- Cached height of a possibly null pointer, lines 47-51. -/
def height : AvlNode α → Int
  | nil => 0
  | node _ _ _ h => h

/-- Balance factor, lines 53-57; dereferences `p`. The difference is the exact integer
difference; it is the source's `int` value when it satisfies `FitsInt`. -/
def bFactor : AvlNode α → Option Int
  | nil => none
  | node l r _ _ => some (height r - height l)

/-- Recompute the cached height from the children, lines 59-63; dereferences `p`. The
sum is the exact integer; it is the source's `int` value when it satisfies `FitsInt`. -/
def fixHeight : AvlNode α → Option (AvlNode α)
  | nil => none
  | node l r d _ => some (node l r d (max (height l) (height r) + 1))

/-- Height check, lines 65-73. An `assert` that fails yields `none`. -/
def checkDepth : AvlNode α → Option Int
  | nil => some 0
  | node l r _ _ =>
    match checkDepth l with
    | none => none
    | some cl =>
      if height l = cl then
        match checkDepth r with
        | none => none
        | some cr =>
          if height r = cr then some (max (height l) (height r) + 1) else none
      else none

/-- Right rotation, lines 75-84. `result = p->left` is dereferenced. -/
def rotateRight : AvlNode α → Option (AvlNode α)
  | nil => none
  | node nil _ _ _ => none
  | node (node a b x hx) c y hy =>
    -- p->left = result->right; result->right = p; fixHeight(p); fixHeight(result)
    match fixHeight (node b c y hy) with
    | none => none
    | some p => fixHeight (node a p x hx)

/-- Left rotation, lines 86-95. `result = p->right` is dereferenced. -/
def rotateLeft : AvlNode α → Option (AvlNode α)
  | nil => none
  | node _ nil _ _ => none
  | node a (node b c y hy) x hx =>
    -- p->right = result->left; result->left = p; fixHeight(p); fixHeight(result)
    match fixHeight (node a b x hx) with
    | none => none
    | some p => fixHeight (node p c y hy)

/-- Rebalancing step, lines 97-114. The balance factors are exact integer differences:
they are the source's `int` values when the cached heights read lie within `exactBound`
(see `HeightsWithin`). -/
def balance : AvlNode α → Option (AvlNode α)
  | nil => none
  | node l r d _ =>
    -- fixHeight(p)
    let h := max (height l) (height r) + 1
    if height r - height l = 2 then
      match bFactor r with
      | none => none
      | some b =>
        if b < 0 then
          match rotateRight r with
          | none => none
          | some r1 => rotateLeft (node l r1 d h)
        else rotateLeft (node l r d h)
    else if height r - height l = -2 then
      match bFactor l with
      | none => none
      | some b =>
        if b > 0 then
          match rotateLeft l with
          | none => none
          | some l1 => rotateRight (node l1 r d h)
        else rotateRight (node l r d h)
    else some (node l r d h)

/-- Insertion, lines 116-129. -/
def insert [LT α] [DecidableRel (fun a b : α => a < b)] :
    AvlNode α → α → Option (AvlNode α)
  | nil, k => some (mk k)
  | node l r d h, k =>
    if k < d then
      match insert l k with
      | none => none
      | some l1 => balance (node l1 r d h)
    else if d < k then
      match insert r k with
      | none => none
      | some r1 => balance (node l r1 d h)
    else some (node l r d h)

/-- Leftmost node, lines 131-135; dereferences `p`. -/
def findmin : AvlNode α → Option (AvlNode α)
  | nil => none
  | node nil r d h => some (node nil r d h)
  | node (node ll lr ld lh) _ _ _ => findmin (node ll lr ld lh)

/-- Unlink the leftmost node, lines 137-144; dereferences `p`. -/
def removemin : AvlNode α → Option (AvlNode α)
  | nil => none
  | node nil r _ _ => some r
  | node (node ll lr ld lh) r d h =>
    match removemin (node ll lr ld lh) with
    | none => none
    | some l1 => balance (node l1 r d h)

/-- Deletion, lines 146-167. In the matching branch the minimum node `m` of the right
subtree is reused as the new root: its `data` (and stale `height`) are kept, its
children are overwritten with `removemin(r)` and `q`. -/
def remove [LT α] [DecidableRel (fun a b : α => a < b)] :
    AvlNode α → α → Option (AvlNode α)
  | nil, _ => some nil
  | node l r d h, k =>
    if k < d then
      match remove l k with
      | none => none
      | some l1 => balance (node l1 r d h)
    else if d < k then
      match remove r k with
      | none => none
      | some r1 => balance (node l r1 d h)
    else
      match r with
      | nil => some l
      | node rl rr rd rh =>
        match findmin (node rl rr rd rh) with
        | none => none
        | some nil => none
        | some (node _ _ md mh) =>
          match removemin (node rl rr rd rh) with
          | none => none
          | some r1 => balance (node l r1 md mh)

/-- The insert loop of `main`, lines 189-192: `tree = insert(tree, nodes[i])`. -/
def insertAll [LT α] [DecidableRel (fun a b : α => a < b)] :
    AvlNode α → List α → Option (AvlNode α)
  | t, [] => some t
  | t, k :: ks =>
    match insert t k with
    | none => none
    | some t1 => insertAll t1 ks

/-- The remove loop of `main`, lines 203-206: `tree = remove(tree, nodes[i])`. -/
def removeAll [LT α] [DecidableRel (fun a b : α => a < b)] :
    AvlNode α → List α → Option (AvlNode α)
  | t, [] => some t
  | t, k :: ks =>
    match remove t k with
    | none => none
    | some t1 => removeAll t1 ks

/-- A call of one of the two mutating operations of the interface. -/
inductive Op (α : Type) where
  | ins (k : α) : Op α
  | rem (k : α) : Op α

/-- Perform one call on the tree. -/
def step [LT α] [DecidableRel (fun a b : α => a < b)] (t : AvlNode α) :
    Op α → Option (AvlNode α)
  | Op.ins k => insert t k
  | Op.rem k => remove t k

/-- Perform a finite sequence of calls, each on the result of the previous one. -/
def run [LT α] [DecidableRel (fun a b : α => a < b)] :
    AvlNode α → List (Op α) → Option (AvlNode α)
  | t, [] => some t
  | t, op :: ops =>
    match step t op with
    | none => none
    | some t1 => run t1 ops

/-! ## Specification vocabulary -/

/-- In-order traversal: the keys from left to right. -/
def inorder : AvlNode α → List α
  | nil => []
  | node l r d _ => inorder l ++ d :: inorder r

/-- True height of a tree: empty 0, leaf 1. -/
def depth : AvlNode α → Nat
  | nil => 0
  | node l r _ _ => max (depth l) (depth r) + 1

/-- Number of nodes. -/
def size : AvlNode α → Nat
  | nil => 0
  | node l r _ _ => size l + size r + 1

/-- Invariant 1, BST ordering: at every node the keys on the left are smaller and the
keys on the right are larger. -/
def Bst [LT α] : AvlNode α → Prop
  | nil => True
  | node l r d _ =>
    (∀ x ∈ inorder l, x < d) ∧ (∀ x ∈ inorder r, d < x) ∧ Bst l ∧ Bst r

/-- Invariant 2, key uniqueness. -/
def Unique (t : AvlNode α) : Prop := (inorder t).Nodup

/-- Invariant 3, height cache: at every node the cached height is one more than the
larger of the children's cached heights (absent child: 0). -/
def HeightOk : AvlNode α → Prop
  | nil => True
  | node l r _ h => h = max (height l) (height r) + 1 ∧ HeightOk l ∧ HeightOk r

/-- Invariant 4, balance, on true heights: at every node the two subtrees differ in
height by at most one. -/
def Balanced : AvlNode α → Prop
  | nil => True
  | node l r _ _ =>
    (depth r : Int) - depth l ≤ 1 ∧ (depth l : Int) - depth r ≤ 1 ∧ Balanced l ∧ Balanced r

/-- Every node caches the true height of its subtree. -/
def HeightTrue : AvlNode α → Prop
  | nil => True
  | node l r d h => h = (depth (node l r d h) : Int) ∧ HeightTrue l ∧ HeightTrue r

/-- The four invariants of the data model together. -/
def Inv [LT α] (t : AvlNode α) : Prop :=
  Bst t ∧ Unique t ∧ HeightOk t ∧ Balanced t

/-- Strictly increasing list of keys. -/
def StrictInc [LT α] (xs : List α) : Prop := xs.Pairwise (fun a b => a < b)

/-- The sorted list `xs` with `k` put at its sorted position (and kept once if it is
already there): the keys below `k`, then `k`, then the keys above `k`. -/
def insKey [LT α] [DecidableRel (fun a b : α => a < b)] (k : α) (xs : List α) : List α :=
  xs.filter (fun x => x < k) ++ k :: xs.filter (fun x => k < x)

/-- The list `xs` without the keys equal to `k` (neither below nor above `k`). -/
def delKey [LT α] [DecidableRel (fun a b : α => a < b)] (k : α) (xs : List α) : List α :=
  xs.filter (fun x => x < k ∨ k < x)

/-- A small well-formed tree: root 2 with the leaves 1 and 3. -/
def demoTree : AvlNode Int := node (mk 1) (mk 3) 2 2

/-- A tree in key order whose cached heights are not the true ones: the node 30 caches
height -1 and the node 20 caches height 3. -/
def staleTree : AvlNode Int := node nil (node nil (node nil nil 30 (-1)) 20 3) 10 4

/-- Invariants 3 and 4 phrased on the cached heights, the form the proofs work with. -/
def Avl : AvlNode α → Prop
  | nil => True
  | node l r _ h =>
    h = max (height l) (height r) + 1 ∧ height r - height l ≤ 1 ∧
      height l - height r ≤ 1 ∧ Avl l ∧ Avl r

instance decBst [LT α] [DecidableRel (fun a b : α => a < b)] :
    (t : AvlNode α) → Decidable (Bst t)
  | nil => isTrue trivial
  | node l r d _ =>
    have := decBst l
    have := decBst r
    inferInstanceAs (Decidable
      ((∀ x ∈ inorder l, x < d) ∧ (∀ x ∈ inorder r, d < x) ∧ Bst l ∧ Bst r))

instance decHeightOk : (t : AvlNode α) → Decidable (HeightOk t)
  | nil => isTrue trivial
  | node l r _ h =>
    have := decHeightOk l
    have := decHeightOk r
    inferInstanceAs (Decidable (h = max (height l) (height r) + 1 ∧ HeightOk l ∧ HeightOk r))

instance decBalanced : (t : AvlNode α) → Decidable (Balanced t)
  | nil => isTrue trivial
  | node l r _ _ =>
    have := decBalanced l
    have := decBalanced r
    inferInstanceAs (Decidable
      ((depth r : Int) - depth l ≤ 1 ∧ (depth l : Int) - depth r ≤ 1 ∧ Balanced l ∧ Balanced r))

instance decHeightTrue : (t : AvlNode α) → Decidable (HeightTrue t)
  | nil => isTrue trivial
  | node l r d h =>
    have := decHeightTrue l
    have := decHeightTrue r
    inferInstanceAs (Decidable
      (h = (depth (node l r d h) : Int) ∧ HeightTrue l ∧ HeightTrue r))

instance decUnique [DecidableEq α] (t : AvlNode α) : Decidable (Unique t) :=
  inferInstanceAs (Decidable (inorder t).Nodup)

instance decInv [LT α] [DecidableRel (fun a b : α => a < b)] [DecidableEq α]
    (t : AvlNode α) : Decidable (Inv t) :=
  inferInstanceAs (Decidable (Bst t ∧ Unique t ∧ HeightOk t ∧ Balanced t))

instance decStrictInc [LT α] [DecidableRel (fun a b : α => a < b)] (xs : List α) :
    Decidable (StrictInc xs) :=
  inferInstanceAs (Decidable (xs.Pairwise (fun a b => a < b)))

/-- The tree built by inserting 5, 2, 8, 1, 3, 7, 9 in that order. -/
def spliceBefore : AvlNode Int :=
  node (node (mk 1) (mk 3) 2 2) (node (mk 7) (mk 9) 8 2) 5 3

/-- The tree left after removing 5 from `spliceBefore`. -/
def spliceAfter : AvlNode Int :=
  node (node (mk 1) (mk 3) 2 2) (node nil (mk 9) 8 2) 7 3

/-- A single node whose cached height is 99 instead of 1. -/
def rootStale : AvlNode Int := node nil nil 0 99

/-- A right chain of true height 3 with the true heights cached. -/
def chainRight : AvlNode Int := node nil (node nil (mk 4) 3 2) 2 3

/-- A node with an empty left subtree and `chainRight` as right subtree: the balance
factor of the root is 3. -/
def chainTree : AvlNode Int := node nil chainRight 1 0

/-- Recursion depth of `find`: the number of nested recursive calls below the outermost
call, following the branches of lines 39-42. -/
def findDepth [LT α] [DecidableRel (fun a b : α => a < b)] : AvlNode α → α → Nat
  | nil, _ => 0
  | node l r d _, value =>
    if d < value then findDepth r value + 1
    else if value < d then findDepth l value + 1
    else 0

/-- Recursion depth of `insert`, following the branches of lines 121-124. -/
def insertDepth [LT α] [DecidableRel (fun a b : α => a < b)] : AvlNode α → α → Nat
  | nil, _ => 0
  | node l r d _, k =>
    if k < d then insertDepth l k + 1
    else if d < k then insertDepth r k + 1
    else 0

/-- Recursion depth of `findmin` and of `removemin`: both walk down the left spine. -/
def leftSpineDepth : AvlNode α → Nat
  | nil => 0
  | node nil _ _ _ => 0
  | node (node ll lr ld lh) _ _ _ => leftSpineDepth (node ll lr ld lh) + 1

/-- Recursion depth of `remove`, following the branches of lines 150-163; in the
matching branch the calls of `findmin` and `removemin` on the right subtree are one
level below the current call and recurse down its left spine. -/
def removeDepth [LT α] [DecidableRel (fun a b : α => a < b)] : AvlNode α → α → Nat
  | nil, _ => 0
  | node l r d _, k =>
    if k < d then removeDepth l k + 1
    else if d < k then removeDepth r k + 1
    else
      match r with
      | nil => 0
      | node rl rr rd rh => leftSpineDepth (node rl rr rd rh) + 1

/-- Smallest value of the source's 32-bit `int`. -/
def intMin : Int := -2147483648

/-- Largest value of the source's 32-bit `int`. -/
def intMax : Int := 2147483647

/-- The integer is representable as an `int` of the source. -/
def FitsInt (x : Int) : Prop := intMin ≤ x ∧ x ≤ intMax

/-- Bound on cached heights, 2^30 - 1, under which the arithmetic of the rebalancing step
is exact: for heights in `-exactBound .. exactBound` every difference of two of them and
every `max(a, b) + 1`, also nested twice, is representable as an `int`. -/
def exactBound : Int := 1073741823

/-- Every cached height stored in the tree lies in `-b .. b`. -/
def HeightsWithin (b : Int) : AvlNode α → Prop
  | nil => True
  | node l r _ h => -b ≤ h ∧ h ≤ b ∧ HeightsWithin b l ∧ HeightsWithin b r

/-- Every cached height stored in the tree is representable as an `int`. -/
def HeightsInt : AvlNode α → Prop
  | nil => True
  | node l r _ h => FitsInt h ∧ HeightsInt l ∧ HeightsInt r

instance decFitsInt (x : Int) : Decidable (FitsInt x) :=
  inferInstanceAs (Decidable (intMin ≤ x ∧ x ≤ intMax))

instance decHeightsWithin (b : Int) : (t : AvlNode α) → Decidable (HeightsWithin b t)
  | nil => isTrue trivial
  | node l r _ h =>
    have := decHeightsWithin b l
    have := decHeightsWithin b r
    inferInstanceAs (Decidable (-b ≤ h ∧ h ≤ b ∧ HeightsWithin b l ∧ HeightsWithin b r))

instance decHeightsInt : (t : AvlNode α) → Decidable (HeightsInt t)
  | nil => isTrue trivial
  | node l r _ h =>
    have := decHeightsInt l
    have := decHeightsInt r
    inferInstanceAs (Decidable (FitsInt h ∧ HeightsInt l ∧ HeightsInt r))

/-- The balance factor that `balance` computes on the node, from the cached heights of
its children, lies in -2..2. -/
def factorInRange : AvlNode α → Bool
  | nil => false
  | node l r _ _ => decide (-2 ≤ height r - height l ∧ height r - height l ≤ 2)

/-- Every call of `balance` made while `insert p k` runs is on a node whose balance
factor lies in -2..2. The calls are those of line 128, one per node on the search path,
each on the node with the subtree returned by the recursive call put in place. -/
def insertFactors [LT α] [DecidableRel (fun a b : α => a < b)] : AvlNode α → α → Bool
  | nil, _ => true
  | node l r d h, k =>
    if k < d then
      insertFactors l k &&
        match insert l k with
        | none => true
        | some l1 => factorInRange (node l1 r d h)
    else if d < k then
      insertFactors r k &&
        match insert r k with
        | none => true
        | some r1 => factorInRange (node l r1 d h)
    else true

/-- Every call of `balance` made while `removemin p` runs (line 143) is on a node whose
balance factor lies in -2..2. -/
def removeminFactors : AvlNode α → Bool
  | nil => true
  | node nil _ _ _ => true
  | node (node ll lr ld lh) r d h =>
    removeminFactors (node ll lr ld lh) &&
      match removemin (node ll lr ld lh) with
      | none => true
      | some l1 => factorInRange (node l1 r d h)

/-- Every call of `balance` made while `remove p k` runs (line 166, and line 143 inside
`removemin`) is on a node whose balance factor lies in -2..2. -/
def removeFactors [LT α] [DecidableRel (fun a b : α => a < b)] : AvlNode α → α → Bool
  | nil, _ => true
  | node l r d h, k =>
    if k < d then
      removeFactors l k &&
        match remove l k with
        | none => true
        | some l1 => factorInRange (node l1 r d h)
    else if d < k then
      removeFactors r k &&
        match remove r k with
        | none => true
        | some r1 => factorInRange (node l r1 d h)
    else
      match r with
      | nil => true
      | node rl rr rd rh =>
        removeminFactors (node rl rr rd rh) &&
          match findmin (node rl rr rd rh), removemin (node rl rr rd rh) with
          | some (node _ _ md mh), some r1 => factorInRange (node l r1 md mh)
          | _, _ => true

/-! ## Cached heights -/

@[simp] theorem height_nil : height (nil : AvlNode α) = 0 := rfl

@[simp] theorem height_node (l r : AvlNode α) (d : α) (h : Int) :
    height (node l r d h) = h := rfl

theorem height_nonneg : ∀ t : AvlNode α, HeightOk t → 0 ≤ height t
  | nil, _ => by simp [height]
  | node l r _ h, ht => by
    have hl := height_nonneg l ht.2.1
    have := ht.1
    simp only [height] at *
    omega

theorem height_node_pos {l r : AvlNode α} {d : α} {h : Int}
    (ht : HeightOk (node l r d h)) : 1 ≤ h := by
  have hl := height_nonneg l ht.2.1
  have := ht.1
  omega

theorem height_eq_depth : ∀ t : AvlNode α, HeightOk t → height t = (depth t : Int)
  | nil, _ => by simp [height, depth]
  | node l r _ h, ht => by
    have hl := height_eq_depth l ht.2.1
    have hr := height_eq_depth r ht.2.2
    have := ht.1
    simp only [height, depth] at *
    omega

theorem heightTrue_of_heightOk : ∀ t : AvlNode α, HeightOk t → HeightTrue t
  | nil, _ => trivial
  | node l r d h, ht =>
    ⟨height_eq_depth (node l r d h) ht, heightTrue_of_heightOk l ht.2.1,
      heightTrue_of_heightOk r ht.2.2⟩

theorem avl_heightOk : ∀ t : AvlNode α, Avl t → HeightOk t
  | nil, _ => trivial
  | node l r _ _, ht => ⟨ht.1, avl_heightOk l ht.2.2.2.1, avl_heightOk r ht.2.2.2.2⟩

theorem avl_balanced : ∀ t : AvlNode α, Avl t → Balanced t
  | nil, _ => trivial
  | node l r _ _, ht => by
    have hl := height_eq_depth l (avl_heightOk l ht.2.2.2.1)
    have hr := height_eq_depth r (avl_heightOk r ht.2.2.2.2)
    refine ⟨?_, ?_, avl_balanced l ht.2.2.2.1, avl_balanced r ht.2.2.2.2⟩
    · have := ht.2.1; omega
    · have := ht.2.2.1; omega

theorem avl_of_heightOk_balanced : ∀ t : AvlNode α, HeightOk t → Balanced t → Avl t
  | nil, _, _ => trivial
  | node l r _ _, ht, hb => by
    have hl := height_eq_depth l ht.2.1
    have hr := height_eq_depth r ht.2.2
    refine ⟨ht.1, ?_, ?_, avl_of_heightOk_balanced l ht.2.1 hb.2.2.1,
      avl_of_heightOk_balanced r ht.2.2 hb.2.2.2⟩
    · have := hb.1; omega
    · have := hb.2.1; omega

theorem checkDepth_of_heightOk : ∀ t : AvlNode α, HeightOk t → checkDepth t = some (height t)
  | nil, _ => rfl
  | node l r _ h, ht => by
    simp [checkDepth, checkDepth_of_heightOk l ht.2.1, checkDepth_of_heightOk r ht.2.2,
      height, ht.1]

/-! ## Rotations and the rebalancing step keep the key sequence -/

theorem rotateRight_inorder {t t1 : AvlNode α} (h : rotateRight t = some t1) :
    inorder t1 = inorder t := by
  match t, h with
  | node (node a b x hx) c y hy, h =>
    simp only [rotateRight, fixHeight, Option.some.injEq] at h
    subst h
    simp [inorder]

theorem rotateLeft_inorder {t t1 : AvlNode α} (h : rotateLeft t = some t1) :
    inorder t1 = inorder t := by
  match t, h with
  | node a (node b c y hy) x hx, h =>
    simp only [rotateLeft, fixHeight, Option.some.injEq] at h
    subst h
    simp [inorder]

theorem balance_inorder {t t1 : AvlNode α} (h : balance t = some t1) :
    inorder t1 = inorder t := by
  match t, h with
  | node l r d h0, h =>
    simp only [balance] at h
    split at h
    · split at h
      · exact absurd h (by simp)
      · split at h
        · split at h
          · exact absurd h (by simp)
          · rename_i r1 hr1
            rw [rotateLeft_inorder h]
            simp [inorder, rotateRight_inorder hr1]
        · rw [rotateLeft_inorder h]
          simp [inorder]
    · split at h
      · split at h
        · exact absurd h (by simp)
        · split at h
          · split at h
            · exact absurd h (by simp)
            · rename_i l1 hl1
              rw [rotateRight_inorder h]
              simp [inorder, rotateLeft_inorder hl1]
          · rw [rotateRight_inorder h]
            simp [inorder]
      · simp only [Option.some.injEq] at h
        subst h
        simp [inorder]

/-- On a node whose cached height is right and whose children differ by at most one,
the rebalancing step changes nothing. -/
theorem balance_id {l r : AvlNode α} {d : α} {h : Int}
    (hh : h = max (height l) (height r) + 1) (h1 : height r - height l ≤ 1)
    (h2 : height l - height r ≤ 1) : balance (node l r d h) = some (node l r d h) := by
  have e1 : ¬ height r - height l = 2 := by omega
  have e2 : ¬ height r - height l = -2 := by omega
  simp [balance, e1, e2, hh]

/-- The rebalancing step on a node with well-cached children: it returns a tree, and the
cached heights of the result are right. -/
theorem balance_heightOk {l r : AvlNode α} (d : α) (h : Int)
    (hl : HeightOk l) (hr : HeightOk r) :
    ∃ t1, balance (node l r d h) = some t1 ∧ HeightOk t1 := by
  have nl := height_nonneg l hl
  have nr := height_nonneg r hr
  by_cases e1 : height r - height l = 2
  · rcases r with _ | ⟨rl, rr, rd, rh⟩
    · simp only [height_nil, height_node] at e1; omega
    · have nrl := height_nonneg rl hr.2.1
      have nrr := height_nonneg rr hr.2.2
      by_cases e3 : height rr - height rl < 0
      · rcases rl with _ | ⟨a, b, x, hx⟩
        · simp only [height_nil, height_node] at e3 nrr; omega
        · simp only [balance, e1, bFactor, e3, rotateRight, rotateLeft, fixHeight, if_true]
          refine ⟨_, rfl, ?_⟩
          simp only [height_nil, height_node, HeightOk] at *
          simp [hl, hr.2.1.2.1, hr.2.1.2.2, hr.2.2]
      · simp only [balance, e1, bFactor, e3, rotateRight, rotateLeft, fixHeight, if_true,
          if_false]
        refine ⟨_, rfl, ?_⟩
        simp only [height_nil, height_node, HeightOk] at *
        simp [hl, hr.2.1, hr.2.2]
  · by_cases e2 : height r - height l = -2
    · rcases l with _ | ⟨ll, lr, ld, lh⟩
      · simp only [height_nil, height_node] at e2; omega
      · have nll := height_nonneg ll hl.2.1
        have nlr := height_nonneg lr hl.2.2
        by_cases e3 : height lr - height ll > 0
        · rcases lr with _ | ⟨a, b, x, hx⟩
          · simp only [height_nil, height_node] at e3 nll; omega
          · simp only [balance, e1, e2, bFactor, e3, rotateRight, rotateLeft, fixHeight,
              if_true, if_false]
            refine ⟨_, rfl, ?_⟩
            simp only [height_nil, height_node, HeightOk] at *
            simp [hr, hl.2.2.2.1, hl.2.2.2.2, hl.2.1]
        · simp only [balance, e1, e2, bFactor, e3, rotateRight, rotateLeft, fixHeight,
            if_true, if_false]
          refine ⟨_, rfl, ?_⟩
          simp only [height_nil, height_node, HeightOk] at *
          simp [hr, hl.2.1, hl.2.2]
    · simp only [balance, e1, e2, if_false]
      exact ⟨_, rfl, rfl, hl, hr⟩

/-- The rebalancing step on a node whose children are AVL trees with heights at most two
apart: the result is an AVL tree of height `max` or `max + 1`, and exactly `max + 1` when
the children are at most one apart. -/
theorem balance_avl {l r : AvlNode α} (d : α) (h : Int) (hl : Avl l) (hr : Avl r)
    (h1 : height r - height l ≤ 2) (h2 : height l - height r ≤ 2) :
    ∃ t1, balance (node l r d h) = some t1 ∧ Avl t1 ∧
      (height t1 = max (height l) (height r) ∨ height t1 = max (height l) (height r) + 1) ∧
      (height r - height l ≤ 1 → height l - height r ≤ 1 →
        t1 = node l r d (max (height l) (height r) + 1)) := by
  have nl := height_nonneg l (avl_heightOk l hl)
  have nr := height_nonneg r (avl_heightOk r hr)
  by_cases e1 : height r - height l = 2
  · rcases r with _ | ⟨rl, rr, rd, rh⟩
    · simp only [height_nil, height_node] at e1; omega
    · obtain ⟨hrh, hr1, hr2, hrl, hrr⟩ := hr
      have nrl := height_nonneg rl (avl_heightOk rl hrl)
      have nrr := height_nonneg rr (avl_heightOk rr hrr)
      by_cases e3 : height rr - height rl < 0
      · rcases rl with _ | ⟨a, b, x, hx⟩
        · simp only [height_nil, height_node] at e3 nrr; omega
        · obtain ⟨hxh, hx1, hx2, ha, hb⟩ := hrl
          have na := height_nonneg a (avl_heightOk a ha)
          have nb := height_nonneg b (avl_heightOk b hb)
          simp only [balance, e1, bFactor, e3, rotateRight, rotateLeft, fixHeight, if_true]
          refine ⟨_, rfl, ?_⟩
          simp only [height_nil, height_node, Avl] at *
          and_intros <;> first | trivial | assumption | omega
      · simp only [balance, e1, bFactor, e3, rotateRight, rotateLeft, fixHeight, if_true,
          if_false]
        refine ⟨_, rfl, ?_⟩
        simp only [height_nil, height_node, Avl] at *
        and_intros <;> first | trivial | assumption | omega
  · by_cases e2 : height r - height l = -2
    · rcases l with _ | ⟨ll, lr, ld, lh⟩
      · simp only [height_nil, height_node] at e2; omega
      · obtain ⟨hlh, hl1, hl2, hll, hlr⟩ := hl
        have nll := height_nonneg ll (avl_heightOk ll hll)
        have nlr := height_nonneg lr (avl_heightOk lr hlr)
        by_cases e3 : height lr - height ll > 0
        · rcases lr with _ | ⟨a, b, x, hx⟩
          · simp only [height_nil, height_node] at e3 nll; omega
          · obtain ⟨hxh, hx1, hx2, ha, hb⟩ := hlr
            have na := height_nonneg a (avl_heightOk a ha)
            have nb := height_nonneg b (avl_heightOk b hb)
            simp only [balance, e1, e2, bFactor, e3, rotateRight, rotateLeft, fixHeight,
              if_true, if_false]
            refine ⟨_, rfl, ?_⟩
            simp only [height_nil, height_node, Avl] at *
            and_intros <;> first | trivial | assumption | omega
        · simp only [balance, e1, e2, bFactor, e3, rotateRight, rotateLeft, fixHeight,
            if_true, if_false]
          refine ⟨_, rfl, ?_⟩
          simp only [height_nil, height_node, Avl] at *
          and_intros <;> first | trivial | assumption | omega
    · simp only [balance, e1, e2, if_false]
      refine ⟨_, rfl, ⟨rfl, by omega, by omega, hl, hr⟩, Or.inr rfl, fun _ _ => rfl⟩

/-! ## Sorted key lists -/

section Order

variable [LinearOrder α]

theorem strictInc_append_cons {l r : List α} {d : α} :
    StrictInc (l ++ d :: r) ↔
      StrictInc l ∧ StrictInc r ∧ (∀ x ∈ l, x < d) ∧ (∀ x ∈ r, d < x) := by
  unfold StrictInc
  rw [List.pairwise_append, List.pairwise_cons]
  constructor
  · rintro ⟨hl, ⟨hdr, hr⟩, hlr⟩
    exact ⟨hl, hr, fun x hx => hlr x hx d (List.mem_cons_self _ _), hdr⟩
  · rintro ⟨hl, hr, hld, hdr⟩
    refine ⟨hl, ⟨hdr, hr⟩, fun x hx y hy => ?_⟩
    rcases List.mem_cons.1 hy with rfl | hy
    · exact hld x hx
    · exact lt_trans (hld x hx) (hdr y hy)

theorem bst_iff_strictInc : ∀ t : AvlNode α, Bst t ↔ StrictInc (inorder t)
  | nil => by simp [Bst, inorder, StrictInc]
  | node l r d h => by
    simp only [Bst, inorder, strictInc_append_cons, bst_iff_strictInc l, bst_iff_strictInc r]
    tauto

theorem strictInc_nodup {xs : List α} (h : StrictInc xs) : xs.Nodup :=
  List.Pairwise.imp (fun hab => ne_of_lt hab) h

theorem filter_lt_below {k d : α} {r : List α} (hk : ¬ d < k) (hr : ∀ x ∈ r, d < x) :
    r.filter (fun x => x < k) = [] := by
  rw [List.filter_eq_nil_iff]
  intro x hx
  have := hr x hx
  simp only [decide_eq_true_eq, not_lt]
  exact le_of_lt (lt_of_le_of_lt (not_lt.1 hk) this)

theorem filter_gt_below {k d : α} {r : List α} (hk : ¬ d < k) (hr : ∀ x ∈ r, d < x) :
    r.filter (fun x => k < x) = r := by
  rw [List.filter_eq_self]
  intro x hx
  simp only [decide_eq_true_eq]
  exact lt_of_le_of_lt (not_lt.1 hk) (hr x hx)

theorem filter_gt_above {k d : α} {l : List α} (hk : ¬ k < d) (hl : ∀ x ∈ l, x < d) :
    l.filter (fun x => k < x) = [] := by
  rw [List.filter_eq_nil_iff]
  intro x hx
  have := hl x hx
  simp only [decide_eq_true_eq, not_lt]
  exact le_of_lt (lt_of_lt_of_le this (not_lt.1 hk))

theorem filter_lt_above {k d : α} {l : List α} (hk : ¬ k < d) (hl : ∀ x ∈ l, x < d) :
    l.filter (fun x => x < k) = l := by
  rw [List.filter_eq_self]
  intro x hx
  simp only [decide_eq_true_eq]
  exact lt_of_lt_of_le (hl x hx) (not_lt.1 hk)

theorem insKey_left {l r : List α} {d k : α} (hr : ∀ x ∈ r, d < x) (hk : k < d) :
    insKey k (l ++ d :: r) = insKey k l ++ d :: r := by
  have h1 : ¬ d < k := not_lt_of_gt hk
  simp [insKey, List.filter_append, List.filter_cons, h1, hk,
    filter_lt_below h1 hr, filter_gt_below h1 hr]

theorem insKey_right {l r : List α} {d k : α} (hl : ∀ x ∈ l, x < d) (hk : d < k) :
    insKey k (l ++ d :: r) = l ++ d :: insKey k r := by
  have h1 : ¬ k < d := not_lt_of_gt hk
  simp [insKey, List.filter_append, List.filter_cons, h1, hk,
    filter_lt_above h1 hl, filter_gt_above h1 hl]

theorem insKey_mid {l r : List α} {d k : α} (hl : ∀ x ∈ l, x < d) (hr : ∀ x ∈ r, d < x)
    (h1 : ¬ k < d) (h2 : ¬ d < k) : insKey k (l ++ d :: r) = l ++ d :: r := by
  have e : k = d := le_antisymm (not_lt.1 h2) (not_lt.1 h1)
  subst e
  simp [insKey, List.filter_append, List.filter_cons,
    filter_lt_above h1 hl, filter_gt_above h1 hl, filter_lt_below h2 hr,
    filter_gt_below h2 hr]

theorem strictInc_insKey {xs : List α} (k : α) (h : StrictInc xs) : StrictInc (insKey k xs) := by
  unfold insKey
  rw [strictInc_append_cons]
  refine ⟨List.Pairwise.sublist (List.filter_sublist _) h,
    List.Pairwise.sublist (List.filter_sublist _) h, ?_, ?_⟩
  · intro x hx
    simpa using (List.mem_filter.1 hx).2
  · intro x hx
    simpa using (List.mem_filter.1 hx).2

theorem mem_insKey {xs : List α} {k x : α} : x ∈ insKey k xs ↔ x = k ∨ x ∈ xs := by
  simp only [insKey, List.mem_append, List.mem_cons, List.mem_filter, decide_eq_true_eq]
  constructor
  · rintro (⟨h, _⟩ | rfl | ⟨h, _⟩)
    · exact Or.inr h
    · exact Or.inl rfl
    · exact Or.inr h
  · rintro (rfl | h)
    · exact Or.inr (Or.inl rfl)
    · rcases lt_trichotomy x k with h1 | h1 | h1
      · exact Or.inl ⟨h, h1⟩
      · exact Or.inr (Or.inl h1)
      · exact Or.inr (Or.inr ⟨h, h1⟩)

end Order

/-! ## Insertion -/

section Insert

variable [LinearOrder α]

theorem insert_heightOk (k : α) :
    ∀ t : AvlNode α, HeightOk t → ∃ t1, insert t k = some t1 ∧ HeightOk t1
  | nil, _ => ⟨mk k, rfl, by simp [mk, HeightOk]⟩
  | node l r d h, ht => by
    by_cases h1 : k < d
    · obtain ⟨l1, e, hl1⟩ := insert_heightOk k l ht.2.1
      obtain ⟨t1, e1, ht1⟩ := balance_heightOk d h hl1 ht.2.2
      exact ⟨t1, by simp [insert, h1, e, e1], ht1⟩
    · by_cases h2 : d < k
      · obtain ⟨r1, e, hr1⟩ := insert_heightOk k r ht.2.2
        obtain ⟨t1, e1, ht1⟩ := balance_heightOk d h ht.2.1 hr1
        exact ⟨t1, by simp [insert, h1, h2, e, e1], ht1⟩
      · exact ⟨node l r d h, by simp [insert, h1, h2], ht⟩

theorem insert_avl (k : α) :
    ∀ t : AvlNode α, Avl t → ∃ t1, insert t k = some t1 ∧ Avl t1 ∧
      (height t1 = height t ∨ height t1 = height t + 1)
  | nil, _ => ⟨mk k, rfl, by simp [mk, Avl], by simp [mk]⟩
  | node l r d h, ht => by
    obtain ⟨hh, b1, b2, hl, hr⟩ := ht
    by_cases h1 : k < d
    · obtain ⟨l1, e, hl1, g⟩ := insert_avl k l hl
      obtain ⟨t1, e1, ht1, g1, g2⟩ := balance_avl d h hl1 hr (by omega) (by omega)
      refine ⟨t1, by simp [insert, h1, e, e1], ht1, ?_⟩
      simp only [height_node]
      by_cases c : height l1 - height r ≤ 1
      · rw [g2 (by omega) c, height_node]
        omega
      · omega
    · by_cases h2 : d < k
      · obtain ⟨r1, e, hr1, g⟩ := insert_avl k r hr
        obtain ⟨t1, e1, ht1, g1, g2⟩ := balance_avl d h hl hr1 (by omega) (by omega)
        refine ⟨t1, by simp [insert, h1, h2, e, e1], ht1, ?_⟩
        simp only [height_node]
        by_cases c : height r1 - height l ≤ 1
        · rw [g2 c (by omega), height_node]
          omega
        · omega
      · exact ⟨node l r d h, by simp [insert, h1, h2], ⟨hh, b1, b2, hl, hr⟩, Or.inl rfl⟩

theorem insert_inorder (k : α) :
    ∀ t t1 : AvlNode α, Bst t → insert t k = some t1 → inorder t1 = insKey k (inorder t)
  | nil, t1, _, h => by
    simp only [insert, mk, Option.some.injEq] at h
    subst h
    simp [inorder, insKey]
  | node l r d h0, t1, hb, h => by
    simp only [insert] at h
    by_cases h1 : k < d
    · simp only [h1, if_true] at h
      cases e : insert l k with
      | none => simp [e] at h
      | some l1 =>
        simp only [e] at h
        rw [balance_inorder h]
        simp only [inorder]
        rw [insert_inorder k l l1 hb.2.2.1 e, insKey_left hb.2.1 h1]
    · by_cases h2 : d < k
      · simp only [h1, h2, if_true, if_false] at h
        cases e : insert r k with
        | none => simp [e] at h
        | some r1 =>
          simp only [e] at h
          rw [balance_inorder h]
          simp only [inorder]
          rw [insert_inorder k r r1 hb.2.2.2 e, insKey_right hb.1 h2]
      · simp only [h1, h2, if_false, Option.some.injEq] at h
        subst h
        simp only [inorder]
        rw [insKey_mid hb.1 hb.2.1 h1 h2]

/-- Inserting a stored key into a tree with the invariants returns the very same tree. -/
theorem insert_present (k : α) :
    ∀ t : AvlNode α, Bst t → Avl t → k ∈ inorder t → insert t k = some t
  | nil, _, _, hk => by simp [inorder] at hk
  | node l r d h, hb, ha, hk => by
    obtain ⟨hh, b1, b2, hl, hr⟩ := ha
    simp only [inorder, List.mem_append, List.mem_cons] at hk
    by_cases h1 : k < d
    · have hkl : k ∈ inorder l := by
        rcases hk with hk | rfl | hk
        · exact hk
        · exact absurd h1 (lt_irrefl _)
        · exact absurd (lt_trans h1 (hb.2.1 k hk)) (lt_irrefl _)
      simp [insert, h1, insert_present k l hb.2.2.1 hl hkl, balance_id hh b1 b2]
    · by_cases h2 : d < k
      · have hkr : k ∈ inorder r := by
          rcases hk with hk | rfl | hk
          · exact absurd (lt_trans h2 (hb.1 k hk)) (lt_irrefl _)
          · exact absurd h2 (lt_irrefl _)
          · exact hk
        simp [insert, h1, h2, insert_present k r hb.2.2.2 hr hkr, balance_id hh b1 b2]
      · simp [insert, h1, h2]

end Insert

/-! ## Removal of the minimum -/

theorem removemin_inorder : ∀ t t1 : AvlNode α, removemin t = some t1 →
    ∃ ml mr md mh, findmin t = some (node ml mr md mh) ∧ inorder t = md :: inorder t1
  | nil, _, h => by simp [removemin] at h
  | node nil r d h0, t1, h => by
    simp only [removemin, Option.some.injEq] at h
    subst h
    exact ⟨nil, r, d, h0, rfl, by simp [inorder]⟩
  | node (node ll lr ld lh) r d h0, t1, h => by
    simp only [removemin] at h
    cases e : removemin (node ll lr ld lh) with
    | none => simp [e] at h
    | some l1 =>
      simp only [e] at h
      obtain ⟨ml, mr, md, mh, e1, e2⟩ := removemin_inorder (node ll lr ld lh) l1 e
      refine ⟨ml, mr, md, mh, by simpa [findmin] using e1, ?_⟩
      rw [balance_inorder h]
      simp only [inorder] at e2 ⊢
      rw [e2]
      simp

theorem removemin_heightOk : ∀ (l r : AvlNode α) (d : α) (h : Int),
    HeightOk (node l r d h) → ∃ t1, removemin (node l r d h) = some t1 ∧ HeightOk t1
  | nil, r, _, _, ht => ⟨r, rfl, ht.2.2⟩
  | node ll lr ld lh, r, d, h, ht => by
    obtain ⟨l1, e, hl1⟩ := removemin_heightOk ll lr ld lh ht.2.1
    obtain ⟨t1, e1, ht1⟩ := balance_heightOk d h hl1 ht.2.2
    exact ⟨t1, by simp [removemin, e, e1], ht1⟩

theorem removemin_avl : ∀ (l r : AvlNode α) (d : α) (h : Int),
    Avl (node l r d h) → ∃ t1, removemin (node l r d h) = some t1 ∧ Avl t1 ∧
      (height t1 = h ∨ height t1 = h - 1)
  | nil, r, _, h, ht => by
    refine ⟨r, rfl, ht.2.2.2.2, Or.inr ?_⟩
    have := height_nonneg r (avl_heightOk r ht.2.2.2.2)
    have := ht.1
    simp only [height_nil] at this
    omega
  | node ll lr ld lh, r, d, h, ht => by
    obtain ⟨hh, b1, b2, hl, hr⟩ := ht
    obtain ⟨l1, e, hl1, g⟩ := removemin_avl ll lr ld lh hl
    simp only [height_node] at hh b1 b2
    obtain ⟨t1, e1, ht1, g1, g2⟩ := balance_avl d h hl1 hr (by omega) (by omega)
    refine ⟨t1, by simp [removemin, e, e1], ht1, ?_⟩
    by_cases c : height r - height l1 ≤ 1
    · rw [g2 c (by omega), height_node]
      omega
    · omega

/-! ## Removal -/

section Remove

variable [LinearOrder α]

theorem filter_apart_self {xs : List α} {k : α} (h : ∀ x ∈ xs, x < k ∨ k < x) :
    xs.filter (fun x => x < k ∨ k < x) = xs := by
  rw [List.filter_eq_self]
  intro x hx
  exact decide_eq_true (h x hx)

theorem delKey_left {l r : List α} {d k : α} (hr : ∀ x ∈ r, d < x) (hk : k < d) :
    delKey k (l ++ d :: r) = delKey k l ++ d :: r := by
  have e : r.filter (fun x => x < k ∨ k < x) = r :=
    filter_apart_self fun x hx => Or.inr (lt_trans hk (hr x hx))
  have hd : decide (d < k ∨ k < d) = true := decide_eq_true (Or.inr hk)
  simp only [delKey, List.filter_append, List.filter_cons, e, hd, if_true]

theorem delKey_right {l r : List α} {d k : α} (hl : ∀ x ∈ l, x < d) (hk : d < k) :
    delKey k (l ++ d :: r) = l ++ d :: delKey k r := by
  have e : l.filter (fun x => x < k ∨ k < x) = l :=
    filter_apart_self fun x hx => Or.inl (lt_trans (hl x hx) hk)
  have hd : decide (d < k ∨ k < d) = true := decide_eq_true (Or.inl hk)
  simp only [delKey, List.filter_append, List.filter_cons, e, hd, if_true]

theorem delKey_mid {l r : List α} {d k : α} (hl : ∀ x ∈ l, x < d) (hr : ∀ x ∈ r, d < x)
    (h1 : ¬ k < d) (h2 : ¬ d < k) : delKey k (l ++ d :: r) = l ++ r := by
  have e : k = d := le_antisymm (not_lt.1 h2) (not_lt.1 h1)
  subst e
  have e1 : l.filter (fun x => x < k ∨ k < x) = l :=
    filter_apart_self fun x hx => Or.inl (hl x hx)
  have e2 : r.filter (fun x => x < k ∨ k < x) = r :=
    filter_apart_self fun x hx => Or.inr (hr x hx)
  have hd : decide (k < k ∨ k < k) = false := decide_eq_false (by simp)
  simp only [delKey, List.filter_append, List.filter_cons, e1, e2, hd]
  simp

theorem strictInc_delKey {xs : List α} (k : α) (h : StrictInc xs) : StrictInc (delKey k xs) :=
  List.Pairwise.sublist (List.filter_sublist _) h

theorem mem_delKey {xs : List α} {k x : α} : x ∈ delKey k xs ↔ x ∈ xs ∧ x ≠ k := by
  simp only [delKey, List.mem_filter, decide_eq_true_eq, lt_or_lt_iff_ne]

theorem delKey_absent {xs : List α} {k : α} (h : k ∉ xs) : delKey k xs = xs :=
  filter_apart_self fun _ hx => lt_or_gt_of_ne fun e => h (e ▸ hx)

theorem delKey_eq_erase {xs : List α} (k : α) (h : StrictInc xs) :
    delKey k xs = xs.erase k := by
  rw [List.Nodup.erase_eq_filter (strictInc_nodup h)]
  unfold delKey
  apply List.filter_congr
  intro x _
  rw [Bool.eq_iff_iff]
  simp [lt_or_lt_iff_ne]

theorem remove_heightOk (k : α) :
    ∀ t : AvlNode α, HeightOk t → ∃ t1, remove t k = some t1 ∧ HeightOk t1
  | nil, _ => ⟨nil, rfl, trivial⟩
  | node l r d h, ht => by
    by_cases h1 : k < d
    · obtain ⟨l1, e, hl1⟩ := remove_heightOk k l ht.2.1
      obtain ⟨t1, e1, ht1⟩ := balance_heightOk d h hl1 ht.2.2
      exact ⟨t1, by simp [remove, h1, e, e1], ht1⟩
    · by_cases h2 : d < k
      · obtain ⟨r1, e, hr1⟩ := remove_heightOk k r ht.2.2
        obtain ⟨t1, e1, ht1⟩ := balance_heightOk d h ht.2.1 hr1
        exact ⟨t1, by simp [remove, h1, h2, e, e1], ht1⟩
      · rcases r with _ | ⟨rl, rr, rd, rh⟩
        · exact ⟨l, by simp [remove, h1, h2], ht.2.1⟩
        · obtain ⟨r1, e, hr1⟩ := removemin_heightOk rl rr rd rh ht.2.2
          obtain ⟨ml, mr, md, mh, e1, _⟩ := removemin_inorder _ _ e
          obtain ⟨t1, e2, ht1⟩ := balance_heightOk md mh ht.2.1 hr1
          exact ⟨t1, by simp [remove, h1, h2, e, e1, e2], ht1⟩

theorem remove_avl (k : α) :
    ∀ t : AvlNode α, Avl t → ∃ t1, remove t k = some t1 ∧ Avl t1 ∧
      (height t1 = height t ∨ height t1 = height t - 1)
  | nil, _ => ⟨nil, rfl, trivial, Or.inl rfl⟩
  | node l r d h, ht => by
    obtain ⟨hh, b1, b2, hl, hr⟩ := ht
    have nl := height_nonneg l (avl_heightOk l hl)
    by_cases h1 : k < d
    · obtain ⟨l1, e, hl1, g⟩ := remove_avl k l hl
      obtain ⟨t1, e1, ht1, g1, g2⟩ := balance_avl d h hl1 hr (by omega) (by omega)
      refine ⟨t1, by simp [remove, h1, e, e1], ht1, ?_⟩
      simp only [height_node]
      by_cases c : height r - height l1 ≤ 1
      · rw [g2 c (by omega), height_node]
        omega
      · omega
    · by_cases h2 : d < k
      · obtain ⟨r1, e, hr1, g⟩ := remove_avl k r hr
        obtain ⟨t1, e1, ht1, g1, g2⟩ := balance_avl d h hl hr1 (by omega) (by omega)
        refine ⟨t1, by simp [remove, h1, h2, e, e1], ht1, ?_⟩
        simp only [height_node]
        by_cases c : height l - height r1 ≤ 1
        · rw [g2 (by omega) c, height_node]
          omega
        · omega
      · rcases r with _ | ⟨rl, rr, rd, rh⟩
        · refine ⟨l, by simp [remove, h1, h2], hl, Or.inr ?_⟩
          simp only [height_nil, height_node] at hh ⊢
          omega
        · obtain ⟨r1, e, hr1, g⟩ := removemin_avl rl rr rd rh hr
          obtain ⟨ml, mr, md, mh, e1, _⟩ := removemin_inorder _ _ e
          simp only [height_node] at hh b1 b2
          obtain ⟨t1, e2, ht1, g1, g2⟩ := balance_avl md mh hl hr1 (by omega) (by omega)
          refine ⟨t1, by simp [remove, h1, h2, e, e1, e2], ht1, ?_⟩
          simp only [height_node]
          by_cases c : height l - height r1 ≤ 1
          · rw [g2 (by omega) c, height_node]
            omega
          · omega

theorem remove_inorder (k : α) :
    ∀ t t1 : AvlNode α, Bst t → remove t k = some t1 → inorder t1 = delKey k (inorder t)
  | nil, t1, _, h => by
    simp only [remove, Option.some.injEq] at h
    subst h
    simp [inorder, delKey]
  | node l r d h0, t1, hb, h => by
    by_cases h1 : k < d
    · simp only [remove, h1, if_true] at h
      cases e : remove l k with
      | none => simp [e] at h
      | some l1 =>
        simp only [e] at h
        rw [balance_inorder h]
        simp only [inorder]
        rw [remove_inorder k l l1 hb.2.2.1 e, delKey_left hb.2.1 h1]
    · by_cases h2 : d < k
      · simp only [remove, h1, h2, if_true, if_false] at h
        cases e : remove r k with
        | none => simp [e] at h
        | some r1 =>
          simp only [e] at h
          rw [balance_inorder h]
          simp only [inorder]
          rw [remove_inorder k r r1 hb.2.2.2 e, delKey_right hb.1 h2]
      · simp only [inorder]
        rw [delKey_mid hb.1 hb.2.1 h1 h2]
        rcases r with _ | ⟨rl, rr, rd, rh⟩
        · simp only [remove, h1, h2, if_false, Option.some.injEq] at h
          subst h
          simp [inorder]
        · simp only [remove, h1, h2, if_false] at h
          cases e : removemin (node rl rr rd rh) with
          | none =>
            cases e1 : findmin (node rl rr rd rh) with
            | none => simp [e1] at h
            | some m =>
              cases m with
              | nil => simp [e1] at h
              | node ml mr md mh => simp [e1, e] at h
          | some r1 =>
            obtain ⟨ml, mr, md, mh, e1, e2⟩ := removemin_inorder _ _ e
            simp only [e1, e] at h
            rw [balance_inorder h, e2]
            simp [inorder]

/-- Removing a key that is not stored from a tree with the invariants returns the very
same tree. -/
theorem remove_absent (k : α) :
    ∀ t : AvlNode α, Bst t → Avl t → k ∉ inorder t → remove t k = some t
  | nil, _, _, _ => rfl
  | node l r d h, hb, ha, hk => by
    obtain ⟨hh, b1, b2, hl, hr⟩ := ha
    simp only [inorder, List.mem_append, List.mem_cons, not_or] at hk
    by_cases h1 : k < d
    · simp [remove, h1, remove_absent k l hb.2.2.1 hl hk.1, balance_id hh b1 b2]
    · by_cases h2 : d < k
      · simp [remove, h1, h2, remove_absent k r hb.2.2.2 hr hk.2.2, balance_id hh b1 b2]
      · exact absurd (le_antisymm (not_lt.1 h2) (not_lt.1 h1)) hk.2.1

end Remove

/-! ## Lookup -/

section Find

variable [LinearOrder α]

theorem find_present (k : α) :
    ∀ t : AvlNode α, Bst t → k ∈ inorder t → ∃ l r h, find t k = node l r k h
  | nil, _, hk => by simp [inorder] at hk
  | node l r d h, hb, hk => by
    simp only [inorder, List.mem_append, List.mem_cons] at hk
    by_cases h1 : d < k
    · have hkr : k ∈ inorder r := by
        rcases hk with hk | rfl | hk
        · exact absurd (lt_trans h1 (hb.1 k hk)) (lt_irrefl _)
        · exact absurd h1 (lt_irrefl _)
        · exact hk
      simpa [find, h1] using find_present k r hb.2.2.2 hkr
    · by_cases h2 : k < d
      · have hkl : k ∈ inorder l := by
          rcases hk with hk | rfl | hk
          · exact hk
          · exact absurd h2 (lt_irrefl _)
          · exact absurd (lt_trans h2 (hb.2.1 k hk)) (lt_irrefl _)
        simpa [find, h1, h2] using find_present k l hb.2.2.1 hkl
      · have e : k = d := le_antisymm (not_lt.1 h1) (not_lt.1 h2)
        subst e
        exact ⟨l, r, h, by simp [find]⟩

theorem find_absent (k : α) : ∀ t : AvlNode α, k ∉ inorder t → find t k = nil
  | nil, _ => rfl
  | node l r d h, hk => by
    simp only [inorder, List.mem_append, List.mem_cons, not_or] at hk
    by_cases h1 : d < k
    · simpa [find, h1] using find_absent k r hk.2.2
    · by_cases h2 : k < d
      · simpa [find, h1, h2] using find_absent k l hk.1
      · exact absurd (le_antisymm (not_lt.1 h1) (not_lt.1 h2)) hk.2.1

theorem find_key (k : α) :
    ∀ (t l r : AvlNode α) (d : α) (h : Int), find t k = node l r d h → ¬ d < k ∧ ¬ k < d
  | nil, _, _, _, _, e => by simp [find] at e
  | node l0 r0 d0 h0, l, r, d, h, e => by
    by_cases h1 : d0 < k
    · simp only [find, h1, if_true] at e
      exact find_key k r0 l r d h e
    · by_cases h2 : k < d0
      · simp only [find, h1, h2, if_true, if_false] at e
        exact find_key k l0 l r d h e
      · simp only [find, h1, h2, if_false, node.injEq] at e
        obtain ⟨_, _, rfl, _⟩ := e
        exact ⟨h1, h2⟩

end Find

/-! ## The invariants along sequences of calls -/

theorem inorder_eq_nil : ∀ t : AvlNode α, inorder t = [] → t = nil
  | nil, _ => rfl
  | node l r d h, e => by simp [inorder] at e

section Reach

variable [LinearOrder α]

theorem inv_iff (t : AvlNode α) : Inv t ↔ Bst t ∧ Avl t := by
  constructor
  · rintro ⟨hb, _, hh, hbal⟩
    exact ⟨hb, avl_of_heightOk_balanced t hh hbal⟩
  · rintro ⟨hb, ha⟩
    exact ⟨hb, strictInc_nodup ((bst_iff_strictInc t).1 hb), avl_heightOk t ha,
      avl_balanced t ha⟩

theorem inv_nil : Inv (nil : AvlNode α) :=
  ⟨trivial, List.nodup_nil, trivial, trivial⟩

theorem insert_inv (k : α) (t : AvlNode α) (h : Inv t) :
    ∃ t1, insert t k = some t1 ∧ Inv t1 ∧ inorder t1 = insKey k (inorder t) := by
  obtain ⟨hb, ha⟩ := (inv_iff t).1 h
  obtain ⟨t1, e, ha1, _⟩ := insert_avl k t ha
  have e1 := insert_inorder k t t1 hb e
  refine ⟨t1, e, (inv_iff t1).2 ⟨(bst_iff_strictInc t1).2 ?_, ha1⟩, e1⟩
  rw [e1]
  exact strictInc_insKey k ((bst_iff_strictInc t).1 hb)

theorem remove_inv (k : α) (t : AvlNode α) (h : Inv t) :
    ∃ t1, remove t k = some t1 ∧ Inv t1 ∧ inorder t1 = delKey k (inorder t) := by
  obtain ⟨hb, ha⟩ := (inv_iff t).1 h
  obtain ⟨t1, e, ha1, _⟩ := remove_avl k t ha
  have e1 := remove_inorder k t t1 hb e
  refine ⟨t1, e, (inv_iff t1).2 ⟨(bst_iff_strictInc t1).2 ?_, ha1⟩, e1⟩
  rw [e1]
  exact strictInc_delKey k ((bst_iff_strictInc t).1 hb)

theorem run_inv : ∀ (ops : List (Op α)) (t : AvlNode α), Inv t →
    ∃ t1, run t ops = some t1 ∧ Inv t1
  | [], t, h => ⟨t, rfl, h⟩
  | Op.ins k :: ops, t, h => by
    obtain ⟨t1, e, h1, _⟩ := insert_inv k t h
    obtain ⟨t2, e2, h2⟩ := run_inv ops t1 h1
    exact ⟨t2, by simp [run, step, e, e2], h2⟩
  | Op.rem k :: ops, t, h => by
    obtain ⟨t1, e, h1, _⟩ := remove_inv k t h
    obtain ⟨t2, e2, h2⟩ := run_inv ops t1 h1
    exact ⟨t2, by simp [run, step, e, e2], h2⟩

theorem insertAll_inv : ∀ (xs : List α) (t : AvlNode α), Inv t →
    ∃ t1, insertAll t xs = some t1 ∧ Inv t1 ∧ ∀ x, x ∈ inorder t1 ↔ x ∈ xs ∨ x ∈ inorder t
  | [], t, h => ⟨t, rfl, h, by simp⟩
  | k :: ks, t, h => by
    obtain ⟨t1, e, h1, e1⟩ := insert_inv k t h
    obtain ⟨t2, e2, h2, m2⟩ := insertAll_inv ks t1 h1
    refine ⟨t2, by simp [insertAll, e, e2], h2, fun x => ?_⟩
    rw [m2 x, e1, mem_insKey, List.mem_cons]
    tauto

theorem removeAll_inv : ∀ (xs : List α) (t : AvlNode α), Inv t →
    ∃ t1, removeAll t xs = some t1 ∧ Inv t1 ∧ ∀ x, x ∈ inorder t1 ↔ x ∈ inorder t ∧ x ∉ xs
  | [], t, h => ⟨t, rfl, h, by simp⟩
  | k :: ks, t, h => by
    obtain ⟨t1, e, h1, e1⟩ := remove_inv k t h
    obtain ⟨t2, e2, h2, m2⟩ := removeAll_inv ks t1 h1
    refine ⟨t2, by simp [removeAll, e, e2], h2, fun x => ?_⟩
    rw [m2 x, e1, mem_delKey, List.mem_cons]
    tauto

theorem insKey_present {xs : List α} {k : α} (h : StrictInc xs) (hk : k ∈ xs) :
    insKey k xs = xs := by
  obtain ⟨l, r, rfl⟩ := List.append_of_mem hk
  obtain ⟨_, _, hl, hr⟩ := strictInc_append_cons.1 h
  exact insKey_mid hl hr (lt_irrefl _) (lt_irrefl _)

end Reach

/-! ## Main results -/

section Results

variable [LinearOrder α]

/-- C1. BST ordering is an invariant of the reachable states: every finite sequence of
insert and remove calls started on the empty tree returns a tree, and the in-order
traversal of that tree is strictly increasing, so no key occurs twice. -/
theorem reachable_inorder_strictly_increasing (ops : List (Op α)) :
    ∃ t, run nil ops = some t ∧ StrictInc (inorder t) ∧ (inorder t).Nodup := by
  obtain ⟨t, e, h⟩ := run_inv ops nil inv_nil
  exact ⟨t, e, (bst_iff_strictInc t).1 h.1, h.2.1⟩

/-- C2. Balance is an invariant of the reachable states: in the tree returned by any
finite sequence of insert and remove calls started on the empty tree, the true heights
of the two subtrees of every node differ by at most one. -/
theorem reachable_balanced (ops : List (Op α)) :
    ∃ t, run nil ops = some t ∧ Balanced t := by
  obtain ⟨t, e, h⟩ := run_inv ops nil inv_nil
  exact ⟨t, e, h.2.2.2⟩

/-- C3. Height-cache correctness is an invariant of the reachable states: in the tree
returned by any finite sequence of insert and remove calls started on the empty tree,
every cached height is one more than the larger cached height of the children, every
cached height is the true height of its subtree, and `checkDepth` passes all its
assertions and returns the true height of the tree. -/
theorem reachable_height_cache (ops : List (Op α)) :
    ∃ t, run nil ops = some t ∧ HeightOk t ∧ HeightTrue t ∧
      checkDepth t = some (depth t : Int) := by
  obtain ⟨t, e, h⟩ := run_inv ops nil inv_nil
  refine ⟨t, e, h.2.2.1, heightTrue_of_heightOk t h.2.2.1, ?_⟩
  rw [checkDepth_of_heightOk t h.2.2.1, height_eq_depth t h.2.2.1]

/-- C4. Insert-then-find round trip: on a tree with the four invariants, insert returns
a tree in which find of the inserted key returns a node, and that node holds the key.
Every tree reached from the empty tree by insert and remove calls is such a tree. -/
theorem insert_then_find (t : AvlNode α) (k : α) (h : Inv t) :
    (∃ t1, insert t k = some t1 ∧ ∃ l r c, find t1 k = node l r k c) ∧
    (∀ ops : List (Op α), ∃ s s1, run nil ops = some s ∧ insert s k = some s1 ∧
      ∃ l r c, find s1 k = node l r k c) := by
  have key : ∀ s : AvlNode α, Inv s →
      ∃ s1, insert s k = some s1 ∧ ∃ l r c, find s1 k = node l r k c := by
    intro s hs
    obtain ⟨s1, e, h1, e1⟩ := insert_inv k s hs
    refine ⟨s1, e, find_present k s1 h1.1 ?_⟩
    rw [e1, mem_insKey]
    exact Or.inl rfl
  refine ⟨key t h, fun ops => ?_⟩
  obtain ⟨s, e, hs⟩ := run_inv ops nil inv_nil
  obtain ⟨s1, e1, hf⟩ := key s hs
  exact ⟨s, s1, e, e1, hf⟩

theorem insert_then_find_witness :
    Inv demoTree ∧
    ((∃ t1, insert demoTree 5 = some t1 ∧ ∃ l r c, find t1 5 = node l r 5 c) ∧
    (∀ ops : List (Op Int), ∃ s s1, run nil ops = some s ∧ insert s 5 = some s1 ∧
      ∃ l r c, find s1 5 = node l r 5 c)) :=
  ⟨by decide, insert_then_find demoTree 5 (by decide)⟩

/-- C5, counterexample. The tree `staleTree` is in key order, yet inserting 5 into it
does not return a tree: the rebalancing step at the root sees balance factor 2 and a
negative balance factor in the right child, and rotates that child to the right although
it has no left child. -/
theorem insert_stale_heights_fails :
    StrictInc (inorder staleTree) ∧ insert staleTree 5 = none ∧
      ¬ ∃ t1, insert staleTree 5 = some t1 ∧ inorder t1 = insKey 5 (inorder staleTree) := by
  refine ⟨by decide, by decide, ?_⟩
  rintro ⟨t1, e, _⟩
  have e0 : insert staleTree 5 = none := by decide
  rw [e0] at e
  exact absurd e (by simp)

/-- C5, amended. For a tree in strict key order: whenever insert returns a tree, its
in-order traversal is that of the argument with the key put at its sorted position, it
is the same sequence when the key was already stored, and its keys are the old keys and
the inserted one; and insert does return a tree when the cached heights of the argument
satisfy the height-cache invariant. -/
theorem insert_adds_exactly_key (t : AvlNode α) (k : α) (hs : StrictInc (inorder t)) :
    (∀ t1, insert t k = some t1 →
      inorder t1 = insKey k (inorder t) ∧
      (k ∈ inorder t → inorder t1 = inorder t) ∧
      (∀ x, x ∈ inorder t1 ↔ x = k ∨ x ∈ inorder t) ∧
      StrictInc (inorder t1)) ∧
    (HeightOk t → ∃ t1, insert t k = some t1) := by
  constructor
  · intro t1 e
    have e1 := insert_inorder k t t1 ((bst_iff_strictInc t).2 hs) e
    refine ⟨e1, fun hk => ?_, fun x => ?_, ?_⟩
    · rw [e1, insKey_present hs hk]
    · rw [e1, mem_insKey]
    · rw [e1]
      exact strictInc_insKey k hs
  · intro hh
    obtain ⟨t1, e, _⟩ := insert_heightOk k t hh
    exact ⟨t1, e⟩

theorem insert_adds_exactly_key_witness :
    StrictInc (inorder demoTree) ∧
    ((∀ t1, insert demoTree 5 = some t1 →
      inorder t1 = insKey 5 (inorder demoTree) ∧
      (5 ∈ inorder demoTree → inorder t1 = inorder demoTree) ∧
      (∀ x, x ∈ inorder t1 ↔ x = 5 ∨ x ∈ inorder demoTree) ∧
      StrictInc (inorder t1)) ∧
    (HeightOk demoTree → ∃ t1, insert demoTree 5 = some t1)) :=
  ⟨by decide, insert_adds_exactly_key demoTree 5 (by decide)⟩

/-- C6. Deletion correctness: on a tree with the four invariants, removing a stored key
returns a tree whose in-order traversal is the old one with the key erased, whose keys
are exactly the old keys other than the removed one, and which again satisfies BST
ordering and the balance property at every node. -/
theorem remove_present_correct (t : AvlNode α) (k : α) (h : Inv t) (hk : k ∈ inorder t) :
    ∃ t1, remove t k = some t1 ∧
      inorder t1 = (inorder t).erase k ∧
      (∀ x, x ∈ inorder t1 ↔ x ∈ inorder t ∧ x ≠ k) ∧
      (inorder t1).length + 1 = (inorder t).length ∧
      Bst t1 ∧ StrictInc (inorder t1) ∧ Balanced t1 := by
  obtain ⟨t1, e, h1, e1⟩ := remove_inv k t h
  have hs := (bst_iff_strictInc t).1 h.1
  have e2 : inorder t1 = (inorder t).erase k := by rw [e1, delKey_eq_erase k hs]
  refine ⟨t1, e, e2, fun x => ?_, ?_, h1.1, (bst_iff_strictInc t1).1 h1.1, h1.2.2.2⟩
  · rw [e1, mem_delKey]
  · rw [e2, List.length_erase_of_mem hk]
    have := List.length_pos_of_mem hk
    omega

theorem remove_present_correct_witness :
    (Inv demoTree ∧ (2 : Int) ∈ inorder demoTree) ∧
    ∃ t1, remove demoTree 2 = some t1 ∧
      inorder t1 = (inorder demoTree).erase 2 ∧
      (∀ x, x ∈ inorder t1 ↔ x ∈ inorder demoTree ∧ x ≠ 2) ∧
      (inorder t1).length + 1 = (inorder demoTree).length ∧
      Bst t1 ∧ StrictInc (inorder t1) ∧ Balanced t1 :=
  ⟨⟨by decide, by decide⟩, remove_present_correct demoTree 2 (by decide) (by decide)⟩

/-- C7. Duplicate insertion is a no-op: on a tree with the four invariants, inserting a
stored key returns the very same tree (same shape, keys and cached heights); and for
any key, inserting it a second time returns the tree the first insertion returned. -/
theorem insert_duplicate_noop (t : AvlNode α) (k : α) (h : Inv t) :
    (k ∈ inorder t → insert t k = some t) ∧
    (∃ t1, insert t k = some t1 ∧ insert t1 k = some t1) := by
  obtain ⟨hb, ha⟩ := (inv_iff t).1 h
  refine ⟨insert_present k t hb ha, ?_⟩
  obtain ⟨t1, e, h1, e1⟩ := insert_inv k t h
  obtain ⟨hb1, ha1⟩ := (inv_iff t1).1 h1
  refine ⟨t1, e, insert_present k t1 hb1 ha1 ?_⟩
  rw [e1, mem_insKey]
  exact Or.inl rfl

theorem insert_duplicate_noop_witness :
    Inv demoTree ∧
    (((3 : Int) ∈ inorder demoTree → insert demoTree 3 = some demoTree) ∧
    (∃ t1, insert demoTree 3 = some t1 ∧ insert t1 3 = some t1)) :=
  ⟨by decide, insert_duplicate_noop demoTree 3 (by decide)⟩

/-- C8. Removing an absent key leaves the tree unchanged: on a tree with the four
invariants, removing a key that is not stored returns the very same tree (same shape,
keys and cached heights); removing from the empty tree returns the empty tree; and for
any key, removing it a second time returns the tree the first removal returned. -/
theorem remove_absent_noop (t : AvlNode α) (k : α) (h : Inv t) :
    (k ∉ inorder t → remove t k = some t) ∧
    remove (nil : AvlNode α) k = some nil ∧
    (∃ t1, remove t k = some t1 ∧ remove t1 k = some t1) := by
  obtain ⟨hb, ha⟩ := (inv_iff t).1 h
  refine ⟨remove_absent k t hb ha, rfl, ?_⟩
  obtain ⟨t1, e, h1, e1⟩ := remove_inv k t h
  obtain ⟨hb1, ha1⟩ := (inv_iff t1).1 h1
  refine ⟨t1, e, remove_absent k t1 hb1 ha1 ?_⟩
  rw [e1, mem_delKey]
  exact fun hx => hx.2 rfl

theorem remove_absent_noop_witness :
    Inv demoTree ∧
    (((7 : Int) ∉ inorder demoTree → remove demoTree 7 = some demoTree) ∧
    remove (nil : AvlNode Int) 7 = some nil ∧
    (∃ t1, remove demoTree 7 = some t1 ∧ remove t1 7 = some t1)) :=
  ⟨by decide, remove_absent_noop demoTree 7 (by decide)⟩

/-- C9. Lookup decides membership: on a tree with BST ordering, find returns a node
exactly when the key is stored; a returned node holds a key equal to the one looked up
(neither is less than the other); find returns the null pointer on the empty tree; and
after inserting a list of keys into the empty tree, exactly the keys of the list are
found. -/
theorem find_decides_membership (t : AvlNode α) (k : α) (hb : Bst t) :
    (find t k ≠ nil ↔ k ∈ inorder t) ∧
    (k ∈ inorder t → ∃ l r c, find t k = node l r k c) ∧
    (∀ l r d c, find t k = node l r d c → d = k ∧ ¬ d < k ∧ ¬ k < d) ∧
    find (nil : AvlNode α) k = nil ∧
    (∀ xs : List α, ∃ s, insertAll nil xs = some s ∧
      ∀ x, (x ∈ xs → ∃ l r c, find s x = node l r x c) ∧ (x ∉ xs → find s x = nil)) := by
  refine ⟨⟨fun hne => ?_, fun hk => ?_⟩, find_present k t hb, fun l r d c e => ?_, rfl,
    fun xs => ?_⟩
  · by_contra hk
    exact hne (find_absent k t hk)
  · obtain ⟨l, r, c, e⟩ := find_present k t hb hk
    rw [e]
    exact fun e0 => AvlNode.noConfusion e0
  · obtain ⟨h1, h2⟩ := find_key k t l r d c e
    exact ⟨le_antisymm (not_lt.1 h2) (not_lt.1 h1), h1, h2⟩
  · obtain ⟨s, e, hs, m⟩ := insertAll_inv xs nil inv_nil
    refine ⟨s, e, fun x => ⟨fun hx => find_present x s hs.1 ((m x).2 (Or.inl hx)),
      fun hx => find_absent x s fun hin => ?_⟩⟩
    rcases (m x).1 hin with h1 | h1
    · exact hx h1
    · simp [inorder] at h1

theorem find_decides_membership_witness :
    Bst demoTree ∧
    ((find demoTree 3 ≠ nil ↔ (3 : Int) ∈ inorder demoTree) ∧
    ((3 : Int) ∈ inorder demoTree → ∃ l r c, find demoTree 3 = node l r 3 c) ∧
    (∀ l r d c, find demoTree 3 = node l r d c → d = 3 ∧ ¬ d < 3 ∧ ¬ 3 < d) ∧
    find (nil : AvlNode Int) 3 = nil ∧
    (∀ xs : List Int, ∃ s, insertAll nil xs = some s ∧
      ∀ x, (x ∈ xs → ∃ l r c, find s x = node l r x c) ∧ (x ∉ xs → find s x = nil))) :=
  ⟨by decide, find_decides_membership demoTree 3 (by decide)⟩

/-- C10. Emptiness round trip: for every list of keys, inserting its elements one at a
time into the empty tree returns a tree, and removing the elements one at a time in the
same order from that tree returns the empty tree. -/
theorem insert_all_remove_all_empty (xs : List α) :
    ∃ t, insertAll nil xs = some t ∧ removeAll t xs = some nil := by
  obtain ⟨t, e, h, m⟩ := insertAll_inv xs nil inv_nil
  obtain ⟨t1, e1, _, m1⟩ := removeAll_inv xs t h
  have hnil : t1 = nil := by
    apply inorder_eq_nil
    apply List.eq_nil_iff_forall_not_mem.2
    intro x hx
    obtain ⟨hin, hnot⟩ := (m1 x).1 hx
    rcases (m x).1 hin with h1 | h1
    · exact hnot h1
    · simp [inorder] at h1
  exact ⟨t, e, by rw [e1, hnil]⟩

end Results

/-! ## Unit scenarios -/

/-- C11. Rotation unit scenario: inserting 1, 2, 3 in that order into the empty tree
returns exactly the tree with root 2 (cached height 2), left child the leaf 1 and right
child the leaf 3 (cached height 1 each). -/
theorem insert_one_two_three :
    insertAll (nil : AvlNode Int) [1, 2, 3] =
      some (node (node nil nil 1 1) (node nil nil 3 1) 2 2) := by
  decide

/-- C12. Successor-splice unit scenario: inserting 5, 2, 8, 1, 3, 7, 9 in that order
into the empty tree and then removing 5 returns a tree with root key 7, in-order
traversal 1, 2, 3, 7, 8, 9, BST ordering, and subtree heights at most one apart at
every node. -/
theorem remove_five_promotes_seven :
    ∃ t s l r c, insertAll (nil : AvlNode Int) [5, 2, 8, 1, 3, 7, 9] = some t ∧
      remove t 5 = some s ∧ s = node l r 7 c ∧
      inorder s = [1, 2, 3, 7, 8, 9] ∧ Bst s ∧ Balanced s :=
  ⟨spliceBefore, spliceAfter, node (mk 1) (mk 3) 2 2, node nil (mk 9) 8 2, 3,
    by decide, by decide, rfl, by decide, by decide, by decide⟩

/-! ## The height check -/

theorem checkDepth_node (l r : AvlNode α) (d : α) (h : Int) :
    checkDepth (node l r d h) =
      if checkDepth l = some (height l) ∧ checkDepth r = some (height r) then
        some (max (height l) (height r) + 1)
      else none := by
  cases hl : checkDepth l with
  | none => simp [checkDepth, hl]
  | some cl =>
    cases hr : checkDepth r with
    | none => simp [checkDepth, hl, hr]
    | some cr =>
      by_cases e1 : height l = cl
      · by_cases e2 : height r = cr
        · simp [checkDepth, hl, hr, e1, e2]
        · have e2b : ¬ cr = height r := fun e => e2 e.symm
          simp [checkDepth, hl, hr, e1, e2, e2b]
      · have e1b : ¬ cl = height l := fun e => e1 e.symm
        simp [checkDepth, hl, hr, e1, e1b]

theorem checkDepth_eq_height_iff :
    ∀ t : AvlNode α, checkDepth t = some (height t) ↔ HeightOk t
  | nil => by simp [checkDepth, HeightOk]
  | node l r d h => by
    rw [checkDepth_node]
    simp only [HeightOk, ← checkDepth_eq_height_iff l, ← checkDepth_eq_height_iff r,
      height_node]
    by_cases c : checkDepth l = some (height l) ∧ checkDepth r = some (height r)
    · simp only [c, and_self, if_true, Option.some.injEq, and_true]
      exact eq_comm
    · simp only [c, if_false]
      constructor
      · intro e
        exact absurd e (by simp)
      · intro e
        exact e.2.elim

/-- C13, counterexample. The single node `rootStale` caches height 99 instead of 1, so
its cached height is not one more than the larger height of its children, and yet
`checkDepth` passes all its assertions on it and returns 1. -/
theorem checkDepth_misses_root :
    checkDepth rootStale = some 1 ∧ ¬ HeightOk rootStale := by
  constructor <;> decide

/-- C13, amended. `checkDepth` on a node completes without an assertion failure exactly
when every node below the root (every node of the two subtrees) caches one more than
the larger cached height of its children; the cached height of the root itself is not
examined. The value returned is one more than the larger cached height of the root's
children, so the root's cache is right as well exactly when that value equals it. On
the empty tree `checkDepth` returns 0. -/
theorem checkDepth_validates_below_root (l r : AvlNode α) (d : α) (h : Int) :
    ((checkDepth (node l r d h)).isSome ↔ HeightOk l ∧ HeightOk r) ∧
    (∀ c, checkDepth (node l r d h) = some c → c = max (height l) (height r) + 1) ∧
    (checkDepth (node l r d h) = some h ↔ HeightOk (node l r d h)) ∧
    checkDepth (nil : AvlNode α) = some 0 := by
  refine ⟨?_, fun c e => ?_, checkDepth_eq_height_iff (node l r d h), rfl⟩
  · rw [checkDepth_node, ← checkDepth_eq_height_iff l, ← checkDepth_eq_height_iff r]
    by_cases c : checkDepth l = some (height l) ∧ checkDepth r = some (height r)
    · simp [c]
    · simp only [c, if_false, Option.isSome_none]
      simp
  · rw [checkDepth_node] at e
    by_cases c : checkDepth l = some (height l) ∧ checkDepth r = some (height r)
    · simp only [c, and_self, if_true, Option.some.injEq] at e
      exact e.symm
    · simp only [c, if_false] at e
      exact absurd e (by simp)

/-! ## The rebalancing step outside its precondition -/

/-- C19, counterexample. The root of `chainTree` has balance factor 3 after its height
is recomputed, and `balance` returns it as a normal result, unrotated, with the cached
height set to 4. -/
theorem balance_factor_three_returns :
    bFactor chainTree = some 3 ∧
      balance chainTree = some (node nil chainRight 1 4) ∧
      balance chainTree ≠ none := by
  refine ⟨by decide, by decide, by decide⟩

/-- C19, amended. When the rebalancing step is applied to a node whose balance factor,
computed after recomputing its height, lies outside -2..2, it performs no rotation and
returns the node as a normal result, with only the cached height recomputed. The cached
heights of the two children, the recomputed height and the balance factor are taken to
be representable as `int`, so that the source computes them without overflow. -/
theorem balance_out_of_range_returns (l r : AvlNode α) (d : α) (h : Int)
    (_hl : FitsInt (height l)) (_hr : FitsInt (height r))
    (_hfix : FitsInt (max (height l) (height r) + 1))
    (_hsub : FitsInt (height r - height l))
    (hf : height r - height l < -2 ∨ 2 < height r - height l) :
    bFactor (node l r d (max (height l) (height r) + 1)) = some (height r - height l) ∧
    balance (node l r d h) = some (node l r d (max (height l) (height r) + 1)) := by
  have e1 : ¬ height r - height l = 2 := by omega
  have e2 : ¬ height r - height l = -2 := by omega
  exact ⟨rfl, by simp [balance, e1, e2]⟩

theorem balance_out_of_range_returns_witness :
    (FitsInt (height (nil : AvlNode Int)) ∧ FitsInt (height chainRight) ∧
      FitsInt (max (height (nil : AvlNode Int)) (height chainRight) + 1) ∧
      FitsInt (height chainRight - height (nil : AvlNode Int)) ∧
      (height chainRight - height (nil : AvlNode Int) < -2 ∨
        2 < height chainRight - height (nil : AvlNode Int))) ∧
    (bFactor (node nil chainRight (1 : Int) (max (height (nil : AvlNode Int))
        (height chainRight) + 1)) = some (height chainRight - height (nil : AvlNode Int)) ∧
    balance (node nil chainRight (1 : Int) 0) =
      some (node nil chainRight 1 (max (height (nil : AvlNode Int)) (height chainRight) + 1))) :=
  ⟨by decide, balance_out_of_range_returns nil chainRight 1 0
    (by decide) (by decide) (by decide) (by decide) (by decide)⟩

/-! ## Logarithmic height -/

theorem fib_le_size : ∀ t : AvlNode α, Balanced t → Nat.fib (depth t + 2) ≤ size t + 1
  | nil, _ => by simp [depth, size]
  | node l r _ _, hb => by
    have hl := fib_le_size l hb.2.2.1
    have hr := fib_le_size r hb.2.2.2
    have b1 := hb.1
    have b2 := hb.2.1
    simp only [depth, size]
    rcases le_total (depth l) (depth r) with c | c
    · have e : Nat.fib (depth r + 1 + 2) = Nat.fib (depth r + 1) + Nat.fib (depth r + 2) :=
        Nat.fib_add_two
      have m : Nat.fib (depth r + 1) ≤ Nat.fib (depth l + 2) := Nat.fib_mono (by omega)
      rw [max_eq_right c, e]
      omega
    · have e : Nat.fib (depth l + 1 + 2) = Nat.fib (depth l + 1) + Nat.fib (depth l + 2) :=
        Nat.fib_add_two
      have m : Nat.fib (depth l + 1) ≤ Nat.fib (depth r + 2) := Nat.fib_mono (by omega)
      rw [max_eq_left c, e]
      omega

theorem two_pow_half_le_fib : ∀ h : Nat, 2 ^ (h / 2) ≤ Nat.fib (h + 2)
  | 0 => by decide
  | 1 => by decide
  | h + 2 => by
    have ih := two_pow_half_le_fib h
    have e : (h + 2) / 2 = h / 2 + 1 := by omega
    have m : Nat.fib (h + 2) ≤ Nat.fib (h + 3) := Nat.fib_mono (by omega)
    have f : Nat.fib (h + 2 + 2) = Nat.fib (h + 2) + Nat.fib (h + 3) := Nat.fib_add_two
    rw [e, pow_succ, f]
    omega

theorem depth_le_log (t : AvlNode α) (hb : Balanced t) :
    depth t ≤ 2 * Nat.log 2 (size t + 1) + 1 := by
  have h1 := le_trans (two_pow_half_le_fib (depth t)) (fib_le_size t hb)
  have h2 : depth t / 2 ≤ Nat.log 2 (size t + 1) :=
    (Nat.pow_le_iff_le_log (by decide) (by omega)).1 h1
  omega

theorem leftSpineDepth_lt : ∀ (l r : AvlNode α) (d : α) (h : Int),
    leftSpineDepth (node l r d h) + 1 ≤ depth (node l r d h)
  | nil, r, _, _ => by simp [leftSpineDepth, depth]
  | node ll lr ld lh, r, d, h => by
    have ih := leftSpineDepth_lt ll lr ld lh
    simp only [leftSpineDepth]
    rw [depth]
    omega

section Log

variable [LinearOrder α]

theorem findDepth_le (k : α) : ∀ t : AvlNode α, findDepth t k ≤ depth t
  | nil => by simp [findDepth]
  | node l r d h => by
    have hl := findDepth_le k l
    have hr := findDepth_le k r
    simp only [findDepth, depth]
    split
    · omega
    · split <;> omega

theorem insertDepth_le (k : α) : ∀ t : AvlNode α, insertDepth t k ≤ depth t
  | nil => by simp [insertDepth]
  | node l r d h => by
    have hl := insertDepth_le k l
    have hr := insertDepth_le k r
    simp only [insertDepth, depth]
    split
    · omega
    · split <;> omega

theorem removeDepth_le (k : α) : ∀ t : AvlNode α, removeDepth t k ≤ depth t
  | nil => by simp [removeDepth]
  | node l r d h => by
    have hl := removeDepth_le k l
    have hr := removeDepth_le k r
    by_cases h1 : k < d
    · simp only [removeDepth, depth, h1, if_true]
      omega
    · by_cases h2 : d < k
      · simp only [removeDepth, depth, h1, h2, if_true, if_false]
        omega
      · rcases r with _ | ⟨rl, rr, rd, rh⟩
        · simp [removeDepth, h1, h2]
        · have hs := leftSpineDepth_lt rl rr rd rh
          simp only [removeDepth, h1, h2, if_false]
          rw [depth]
          omega

/-- C14. Logarithmic height: a tree with the height-cache and balance invariants, with
n nodes and height h (cached at the root, equal to the true height), has
n + 1 ≥ Fib(h + 2) and hence 2^(h div 2) ≤ n + 1 and h ≤ 2 log2(n + 1) + 1; the
recursion depths of find, insert and remove are at most h. Every tree reached from the
empty tree by insert and remove calls satisfies the same bounds. -/
theorem avl_height_logarithmic (t : AvlNode α) (k : α) (hh : HeightOk t) (hb : Balanced t) :
    height t = (depth t : Int) ∧
    Nat.fib (depth t + 2) ≤ size t + 1 ∧
    2 ^ (depth t / 2) ≤ size t + 1 ∧
    depth t ≤ 2 * Nat.log 2 (size t + 1) + 1 ∧
    findDepth t k ≤ depth t ∧ insertDepth t k ≤ depth t ∧ removeDepth t k ≤ depth t ∧
    (∀ ops : List (Op α), ∃ s, run nil ops = some s ∧
      Nat.fib (depth s + 2) ≤ size s + 1 ∧ 2 ^ (depth s / 2) ≤ size s + 1) := by
  refine ⟨height_eq_depth t hh, fib_le_size t hb,
    le_trans (two_pow_half_le_fib (depth t)) (fib_le_size t hb), depth_le_log t hb,
    findDepth_le k t, insertDepth_le k t, removeDepth_le k t, fun ops => ?_⟩
  obtain ⟨s, e, hs⟩ := run_inv ops nil inv_nil
  exact ⟨s, e, fib_le_size s hs.2.2.2,
    le_trans (two_pow_half_le_fib (depth s)) (fib_le_size s hs.2.2.2)⟩

theorem avl_height_logarithmic_witness :
    (HeightOk demoTree ∧ Balanced demoTree) ∧
    (height demoTree = (depth demoTree : Int) ∧
    Nat.fib (depth demoTree + 2) ≤ size demoTree + 1 ∧
    2 ^ (depth demoTree / 2) ≤ size demoTree + 1 ∧
    depth demoTree ≤ 2 * Nat.log 2 (size demoTree + 1) + 1 ∧
    findDepth demoTree 3 ≤ depth demoTree ∧ insertDepth demoTree 3 ≤ depth demoTree ∧
    removeDepth demoTree 3 ≤ depth demoTree ∧
    (∀ ops : List (Op Int), ∃ s, run nil ops = some s ∧
      Nat.fib (depth s + 2) ≤ size s + 1 ∧ 2 ^ (depth s / 2) ≤ size s + 1)) :=
  ⟨⟨by decide, by decide⟩, avl_height_logarithmic demoTree 3 (by decide) (by decide)⟩

end Log

/-! ## Shape of the operations -/

theorem findmin_node : ∀ (l r : AvlNode α) (d : α) (h : Int),
    ∃ mr md mh, findmin (node l r d h) = some (node nil mr md mh) ∧
      (inorder (node l r d h)).head? = some md
  | nil, r, d, h => ⟨r, d, h, rfl, by simp [inorder]⟩
  | node ll lr ld lh, r, d, h => by
    obtain ⟨mr, md, mh, e, eh⟩ := findmin_node ll lr ld lh
    refine ⟨mr, md, mh, by simpa [findmin] using e, ?_⟩
    rw [inorder, List.head?_append, eh]
    rfl

/-- C16. The rebalancing step restores the AVL shape: on a node whose two subtrees
satisfy the height-cache and balance invariants and whose subtree heights differ by at
most 2 (the cached height of the node itself may be anything), `balance` returns a tree
that satisfies both invariants at every node, with the same key sequence, whose height
is the larger subtree height or one more; when the subtree heights differ by at most 1
it is the node itself with the cached height recomputed (no rotation), of height one
more than the larger subtree height. -/
theorem balance_restores_avl (l r : AvlNode α) (d : α) (h : Int)
    (hl : HeightOk l) (bl : Balanced l) (hr : HeightOk r) (br : Balanced r)
    (h1 : height r - height l ≤ 2) (h2 : height l - height r ≤ 2) :
    ∃ t1, balance (node l r d h) = some t1 ∧ HeightOk t1 ∧ Balanced t1 ∧
      (height t1 = max (height l) (height r) ∨ height t1 = max (height l) (height r) + 1) ∧
      (height r - height l ≤ 1 → height l - height r ≤ 1 →
        t1 = node l r d (max (height l) (height r) + 1)) ∧
      height t1 = (depth t1 : Int) ∧
      inorder t1 = inorder l ++ d :: inorder r := by
  obtain ⟨t1, e, ha, g1, g2⟩ := balance_avl d h (avl_of_heightOk_balanced l hl bl)
    (avl_of_heightOk_balanced r hr br) h1 h2
  exact ⟨t1, e, avl_heightOk t1 ha, avl_balanced t1 ha, g1, g2,
    height_eq_depth t1 (avl_heightOk t1 ha), by rw [balance_inorder e, inorder]⟩

theorem balance_restores_avl_witness :
    (HeightOk (nil : AvlNode Int) ∧ Balanced (nil : AvlNode Int) ∧
      HeightOk (node nil (mk 3) (2 : Int) 2) ∧ Balanced (node nil (mk 3) (2 : Int) 2) ∧
      height (node nil (mk 3) (2 : Int) 2) - height (nil : AvlNode Int) ≤ 2 ∧
      height (nil : AvlNode Int) - height (node nil (mk 3) (2 : Int) 2) ≤ 2) ∧
    ∃ t1, balance (node nil (node nil (mk 3) 2 2) (1 : Int) 0) = some t1 ∧
      HeightOk t1 ∧ Balanced t1 ∧
      (height t1 = max (height (nil : AvlNode Int)) (height (node nil (mk 3) (2 : Int) 2)) ∨
        height t1 =
          max (height (nil : AvlNode Int)) (height (node nil (mk 3) (2 : Int) 2)) + 1) ∧
      (height (node nil (mk 3) (2 : Int) 2) - height (nil : AvlNode Int) ≤ 1 →
        height (nil : AvlNode Int) - height (node nil (mk 3) (2 : Int) 2) ≤ 1 →
        t1 = node nil (node nil (mk 3) 2 2) 1
          (max (height (nil : AvlNode Int)) (height (node nil (mk 3) (2 : Int) 2)) + 1)) ∧
      height t1 = (depth t1 : Int) ∧
      inorder t1 = inorder (nil : AvlNode Int) ++ 1 :: inorder (node nil (mk 3) (2 : Int) 2) :=
  ⟨by decide, balance_restores_avl nil (node nil (mk 3) 2 2) 1 0
    (by decide) (by decide) (by decide) (by decide) (by decide) (by decide)⟩

theorem heightsWithin_height {b : Int} (hb : 0 ≤ b) :
    ∀ t : AvlNode α, HeightsWithin b t → -b ≤ height t ∧ height t ≤ b
  | nil, _ => by simp only [height_nil]; omega
  | node _ _ _ _, ht => ⟨ht.1, ht.2.1⟩

theorem heightsInt_of_within : ∀ t : AvlNode α, HeightsWithin exactBound t → HeightsInt t
  | nil, _ => trivial
  | node l r _ h, ht => by
    refine ⟨?_, heightsInt_of_within l ht.2.2.1, heightsInt_of_within r ht.2.2.2⟩
    have h1 := ht.1
    have h2 := ht.2.1
    simp only [FitsInt, intMin, intMax, exactBound] at *
    omega

/-- The rebalancing step on a node whose subtrees have cached heights within
`exactBound` and whose promoted children exist returns a tree with the same key sequence
whose cached heights are all representable as `int`. -/
theorem balance_exact {l r : AvlNode α} (d : α) (h : Int)
    (wl : HeightsWithin exactBound l) (wr : HeightsWithin exactBound r)
    (p2 : height r - height l = 2 → ∃ rl rr rd rh, r = node rl rr rd rh ∧
      (height rr - height rl < 0 → rl ≠ nil))
    (pm2 : height r - height l = -2 → ∃ ll lr ld lh, l = node ll lr ld lh ∧
      (height lr - height ll > 0 → lr ≠ nil)) :
    ∃ t1, balance (node l r d h) = some t1 ∧ inorder t1 = inorder (node l r d h) ∧
      HeightsInt t1 := by
  have b0 : (0 : Int) ≤ exactBound := by decide
  have il := heightsInt_of_within l wl
  have ir := heightsInt_of_within r wr
  have nl := heightsWithin_height b0 l wl
  have nr := heightsWithin_height b0 r wr
  suffices hs : ∃ t1, balance (node l r d h) = some t1 ∧ HeightsInt t1 by
    obtain ⟨t1, e, hi⟩ := hs
    exact ⟨t1, e, balance_inorder e, hi⟩
  by_cases e1 : height r - height l = 2
  · obtain ⟨rl, rr, rd, rh, rfl, hrl⟩ := p2 e1
    obtain ⟨-, irl, irr⟩ := ir
    have nrl := heightsWithin_height b0 rl wr.2.2.1
    have nrr := heightsWithin_height b0 rr wr.2.2.2
    by_cases e3 : height rr - height rl < 0
    · rcases rl with _ | ⟨a, b, x, hx⟩
      · exact absurd rfl (hrl e3)
      · obtain ⟨-, ia, ib⟩ := irl
        have na := heightsWithin_height b0 a wr.2.2.1.2.2.1
        have nb := heightsWithin_height b0 b wr.2.2.1.2.2.2
        simp only [balance, e1, bFactor, e3, rotateRight, rotateLeft, fixHeight, if_true]
        refine ⟨_, rfl, ?_⟩
        simp only [HeightsInt, FitsInt, intMin, intMax, exactBound, height_node] at *
        and_intros <;> first | omega | assumption
    · simp only [balance, e1, bFactor, e3, rotateRight, rotateLeft, fixHeight, if_true,
        if_false]
      refine ⟨_, rfl, ?_⟩
      simp only [HeightsInt, FitsInt, intMin, intMax, exactBound, height_node] at *
      and_intros <;> first | omega | assumption
  · by_cases e2 : height r - height l = -2
    · obtain ⟨ll, lr, ld, lh, rfl, hlr⟩ := pm2 e2
      obtain ⟨-, ill, ilr⟩ := il
      have nll := heightsWithin_height b0 ll wl.2.2.1
      have nlr := heightsWithin_height b0 lr wl.2.2.2
      by_cases e3 : height lr - height ll > 0
      · rcases lr with _ | ⟨a, b, x, hx⟩
        · exact absurd rfl (hlr e3)
        · obtain ⟨-, ia, ib⟩ := ilr
          have na := heightsWithin_height b0 a wl.2.2.2.2.2.1
          have nb := heightsWithin_height b0 b wl.2.2.2.2.2.2
          simp only [balance, e1, e2, bFactor, e3, rotateRight, rotateLeft, fixHeight,
            if_true, if_false]
          refine ⟨_, rfl, ?_⟩
          simp only [HeightsInt, FitsInt, intMin, intMax, exactBound, height_node] at *
          and_intros <;> first | omega | assumption
      · simp only [balance, e1, e2, bFactor, e3, rotateRight, rotateLeft, fixHeight,
          if_true, if_false]
        refine ⟨_, rfl, ?_⟩
        simp only [HeightsInt, FitsInt, intMin, intMax, exactBound, height_node] at *
        and_intros <;> first | omega | assumption
    · simp only [balance, e1, e2, if_false]
      refine ⟨_, rfl, ?_⟩
      simp only [HeightsInt, FitsInt, intMin, intMax, exactBound, height_node] at *
      and_intros <;> first | omega | assumption

/-- C17. Rotations keep the key order: `rotateLeft` on node(A, x, node(B, y, C)) returns
node(node(A, x, B), y, C), where the demoted node x gets its cached height recomputed
first and the promoted node y gets its cached height from that new value; `rotateRight`
is the mirror image; and `rotateLeft`, `rotateRight` and `balance` return a tree with
the same in-order key sequence as their argument whenever each child they promote
exists. The cached heights read and the heights computed are taken to be representable
as `int` (for `balance`: all cached heights of the two subtrees within `exactBound`), so
that the source's arithmetic does not overflow; the trees returned then again hold only
`int` heights. -/
theorem rotations_keep_inorder :
    (∀ (a b c : AvlNode α) (x y : α) (hx hy : Int),
      FitsInt (height a) → FitsInt (height b) → FitsInt (height c) →
      FitsInt (max (height a) (height b) + 1) →
      FitsInt (max (max (height a) (height b) + 1) (height c) + 1) →
      rotateLeft (node a (node b c y hy) x hx) =
        some (node (node a b x (max (height a) (height b) + 1)) c y
          (max (max (height a) (height b) + 1) (height c) + 1))) ∧
    (∀ (a b c : AvlNode α) (x y : α) (hx hy : Int),
      FitsInt (height a) → FitsInt (height b) → FitsInt (height c) →
      FitsInt (max (height b) (height c) + 1) →
      FitsInt (max (height a) (max (height b) (height c) + 1) + 1) →
      rotateRight (node (node a b x hx) c y hy) =
        some (node a (node b c y (max (height b) (height c) + 1)) x
          (max (height a) (max (height b) (height c) + 1) + 1))) ∧
    (∀ (l rl rr : AvlNode α) (d rd : α) (h rh : Int),
      ∃ t1, rotateLeft (node l (node rl rr rd rh) d h) = some t1 ∧
        inorder t1 = inorder (node l (node rl rr rd rh) d h)) ∧
    (∀ (ll lr r : AvlNode α) (d ld : α) (h lh : Int),
      ∃ t1, rotateRight (node (node ll lr ld lh) r d h) = some t1 ∧
        inorder t1 = inorder (node (node ll lr ld lh) r d h)) ∧
    (∀ (l r : AvlNode α) (d : α) (h : Int),
      HeightsWithin exactBound l → HeightsWithin exactBound r →
      (height r - height l = 2 → ∃ rl rr rd rh, r = node rl rr rd rh ∧
        (height rr - height rl < 0 → rl ≠ nil)) →
      (height r - height l = -2 → ∃ ll lr ld lh, l = node ll lr ld lh ∧
        (height lr - height ll > 0 → lr ≠ nil)) →
      ∃ t1, balance (node l r d h) = some t1 ∧ inorder t1 = inorder (node l r d h) ∧
        HeightsInt t1) :=
  ⟨fun _ _ _ _ _ _ _ _ _ _ _ _ => rfl, fun _ _ _ _ _ _ _ _ _ _ _ _ => rfl,
    fun _ _ _ _ _ _ _ => ⟨_, rfl, by simp [inorder, height]⟩,
    fun _ _ _ _ _ _ _ => ⟨_, rfl, by simp [inorder, height]⟩,
    fun _ _ d h wl wr p2 pm2 => balance_exact d h wl wr p2 pm2⟩

theorem rotations_keep_inorder_witness :
    (HeightsWithin exactBound (nil : AvlNode Int) ∧
      HeightsWithin exactBound (node nil (mk 3) (2 : Int) 2)) ∧
    ∃ t1, balance (node nil (node nil (mk 3) 2 2) (1 : Int) 0) = some t1 ∧
      inorder t1 = inorder (node nil (node nil (mk 3) 2 2) (1 : Int) 0) ∧ HeightsInt t1 :=
  ⟨by decide, rotations_keep_inorder.2.2.2.2 nil (node nil (mk 3) 2 2) 1 0
    (by decide) (by decide)
    (fun _ => ⟨nil, mk 3, 2, 2, rfl, fun e => absurd e (by decide)⟩)
    (fun e => absurd e (by decide))⟩

section Shape

variable [LinearOrder α]

end Shape

/-! ## Balance factors seen by the rebalancing step -/

theorem factorInRange_node {l r : AvlNode α} {d : α} {h : Int}
    (h1 : -2 ≤ height r - height l) (h2 : height r - height l ≤ 2) :
    factorInRange (node l r d h) = true := by
  simp [factorInRange, h1, h2]

theorem removeminFactors_avl : ∀ (l r : AvlNode α) (d : α) (h : Int),
    Avl (node l r d h) → removeminFactors (node l r d h) = true
  | nil, _, _, _, _ => rfl
  | node ll lr ld lh, r, d, h, ht => by
    obtain ⟨hh, b1, b2, hl, hr⟩ := ht
    obtain ⟨l1, e, _, g⟩ := removemin_avl ll lr ld lh hl
    simp only [height_node] at b1 b2
    simp only [removeminFactors, removeminFactors_avl ll lr ld lh hl, e, Bool.true_and]
    exact factorInRange_node (by omega) (by omega)

section Factors

variable [LinearOrder α]

theorem insertFactors_avl (k : α) : ∀ t : AvlNode α, Avl t → insertFactors t k = true
  | nil, _ => rfl
  | node l r d h, ht => by
    obtain ⟨hh, b1, b2, hl, hr⟩ := ht
    by_cases h1 : k < d
    · obtain ⟨l1, e, _, g⟩ := insert_avl k l hl
      simp only [insertFactors, h1, if_true, insertFactors_avl k l hl, e, Bool.true_and]
      exact factorInRange_node (by omega) (by omega)
    · by_cases h2 : d < k
      · obtain ⟨r1, e, _, g⟩ := insert_avl k r hr
        simp only [insertFactors, h1, h2, if_true, if_false, insertFactors_avl k r hr, e,
          Bool.true_and]
        exact factorInRange_node (by omega) (by omega)
      · simp [insertFactors, h1, h2]

theorem removeFactors_avl (k : α) : ∀ t : AvlNode α, Avl t → removeFactors t k = true
  | nil, _ => rfl
  | node l r d h, ht => by
    obtain ⟨hh, b1, b2, hl, hr⟩ := ht
    by_cases h1 : k < d
    · obtain ⟨l1, e, _, g⟩ := remove_avl k l hl
      simp only [removeFactors, h1, if_true, removeFactors_avl k l hl, e, Bool.true_and]
      exact factorInRange_node (by omega) (by omega)
    · by_cases h2 : d < k
      · obtain ⟨r1, e, _, g⟩ := remove_avl k r hr
        simp only [removeFactors, h1, h2, if_true, if_false, removeFactors_avl k r hr, e,
          Bool.true_and]
        exact factorInRange_node (by omega) (by omega)
      · rcases r with _ | ⟨rl, rr, rd, rh⟩
        · simp [removeFactors, h1, h2]
        · obtain ⟨r1, e, _, g⟩ := removemin_avl rl rr rd rh hr
          obtain ⟨ml, mr, md, mh, e1, _⟩ := removemin_inorder _ _ e
          simp only [height_node] at b1 b2
          simp only [removeFactors, h1, h2, if_false, removeminFactors_avl rl rr rd rh hr,
            e, e1, Bool.true_and]
          exact factorInRange_node (by omega) (by omega)

/-- C18. Balance factors stay within -2..2: on a tree with the height-cache and balance
invariants, insert returns a tree of the same height or one more, remove returns a tree
of the same height or one less, and removemin on a non-empty tree returns a tree of the
same height or one less, each again with both invariants; and every call of the
rebalancing step made during insert, remove or removemin on such a tree sees, after the
height is recomputed, a balance factor in -2..2. -/
theorem factors_stay_in_range (t : AvlNode α) (k : α) (hh : HeightOk t) (hb : Balanced t) :
    (∃ t1, insert t k = some t1 ∧ HeightOk t1 ∧ Balanced t1 ∧
      (height t1 = height t ∨ height t1 = height t + 1)) ∧
    (∃ t1, remove t k = some t1 ∧ HeightOk t1 ∧ Balanced t1 ∧
      (height t1 = height t ∨ height t1 = height t - 1)) ∧
    (t ≠ nil → ∃ t1, removemin t = some t1 ∧ HeightOk t1 ∧ Balanced t1 ∧
      (height t1 = height t ∨ height t1 = height t - 1)) ∧
    insertFactors t k = true ∧ removeFactors t k = true ∧ removeminFactors t = true := by
  have ha := avl_of_heightOk_balanced t hh hb
  refine ⟨?_, ?_, fun hne => ?_, insertFactors_avl k t ha, removeFactors_avl k t ha, ?_⟩
  · obtain ⟨t1, e, h1, g⟩ := insert_avl k t ha
    exact ⟨t1, e, avl_heightOk t1 h1, avl_balanced t1 h1, g⟩
  · obtain ⟨t1, e, h1, g⟩ := remove_avl k t ha
    exact ⟨t1, e, avl_heightOk t1 h1, avl_balanced t1 h1, g⟩
  · rcases t with _ | ⟨l, r, d, h⟩
    · exact absurd rfl hne
    · obtain ⟨t1, e, h1, g⟩ := removemin_avl l r d h ha
      exact ⟨t1, e, avl_heightOk t1 h1, avl_balanced t1 h1, g⟩
  · rcases t with _ | ⟨l, r, d, h⟩
    · rfl
    · exact removeminFactors_avl l r d h ha

theorem factors_stay_in_range_witness :
    (HeightOk demoTree ∧ Balanced demoTree) ∧
    ((∃ t1, insert demoTree 5 = some t1 ∧ HeightOk t1 ∧ Balanced t1 ∧
      (height t1 = height demoTree ∨ height t1 = height demoTree + 1)) ∧
    (∃ t1, remove demoTree 5 = some t1 ∧ HeightOk t1 ∧ Balanced t1 ∧
      (height t1 = height demoTree ∨ height t1 = height demoTree - 1)) ∧
    (demoTree ≠ nil → ∃ t1, removemin demoTree = some t1 ∧ HeightOk t1 ∧ Balanced t1 ∧
      (height t1 = height demoTree ∨ height t1 = height demoTree - 1)) ∧
    insertFactors demoTree 5 = true ∧ removeFactors demoTree 5 = true ∧
    removeminFactors demoTree = true) :=
  ⟨⟨by decide, by decide⟩, factors_stay_in_range demoTree 5 (by decide) (by decide)⟩

end Factors

/-! ## No rotation around an absent child -/

theorem heightTrue_height : ∀ t : AvlNode α, HeightTrue t → height t = (depth t : Int)
  | nil, _ => rfl
  | node _ _ _ _, ht => ht.1

theorem heightOk_of_heightTrue : ∀ t : AvlNode α, HeightTrue t → HeightOk t
  | nil, _ => trivial
  | node l r d h, ht => by
    have hl := heightTrue_height l ht.2.1
    have hr := heightTrue_height r ht.2.2
    have hh := ht.1
    refine ⟨?_, heightOk_of_heightTrue l ht.2.1, heightOk_of_heightTrue r ht.2.2⟩
    simp only [depth] at hh
    omega

section Safety

variable [LinearOrder α]

/-- C20. Rotations inside `balance` never promote an absent child: on a node whose two
subtrees cache their true heights everywhere, balance factor 2 implies that the right
subtree is non-empty and, when its own balance factor is negative, that its left
subtree is non-empty; balance factor -2 implies that the left subtree is non-empty and,
when its own balance factor is positive, that its right subtree is non-empty. `findmin`
and `removemin` fail on the null pointer, return on every non-empty subtree with
well-cached heights, and remove returns without them when the right subtree of the
matching node is empty. Hence `balance` returns a tree on such a node, and insert and
remove return a tree on every tree with the height-cache invariant. -/
theorem no_absent_promotion (l r : AvlNode α) (d k : α) (h : Int)
    (hl : HeightTrue l) (hr : HeightTrue r) :
    (bFactor (node l r d h) = some 2 →
      r ≠ nil ∧ ∀ rl rr rd rh b, r = node rl rr rd rh → bFactor r = some b → b < 0 →
        rl ≠ nil) ∧
    (bFactor (node l r d h) = some (-2) →
      l ≠ nil ∧ ∀ ll lr ld lh b, l = node ll lr ld lh → bFactor l = some b → b > 0 →
        lr ≠ nil) ∧
    (∃ t1, balance (node l r d h) = some t1 ∧ HeightOk t1) ∧
    (findmin (nil : AvlNode α) = none ∧ removemin (nil : AvlNode α) = none ∧
      remove (node l nil d h) d = some l) ∧
    (r ≠ nil → (∃ mr m mh, findmin r = some (node nil mr m mh)) ∧
      ∃ r1, removemin r = some r1 ∧ HeightOk r1) ∧
    (∀ t : AvlNode α, HeightOk t →
      (∃ t1, insert t k = some t1 ∧ HeightOk t1) ∧
      (∃ t1, remove t k = some t1 ∧ HeightOk t1)) := by
  have ol := heightOk_of_heightTrue l hl
  have or := heightOk_of_heightTrue r hr
  have nl := height_nonneg l ol
  have nr := height_nonneg r or
  refine ⟨fun e => ?_, fun e => ?_, balance_heightOk d h ol or, ⟨rfl, rfl, ?_⟩,
    fun hne => ?_, fun t ht => ⟨insert_heightOk k t ht, remove_heightOk k t ht⟩⟩
  · simp only [bFactor, Option.some.injEq] at e
    constructor
    · rintro rfl
      simp only [height_nil] at e
      omega
    · rintro rl rr rd rh b rfl eb hb
      simp only [bFactor, Option.some.injEq] at eb
      have nrr := height_nonneg rr or.2.2
      rintro rfl
      simp only [height_nil] at eb
      omega
  · simp only [bFactor, Option.some.injEq] at e
    constructor
    · rintro rfl
      simp only [height_nil] at e
      omega
    · rintro ll lr ld lh b rfl eb hb
      simp only [bFactor, Option.some.injEq] at eb
      have nll := height_nonneg ll ol.2.1
      rintro rfl
      simp only [height_nil] at eb
      omega
  · simp [remove]
  · rcases r with _ | ⟨rl, rr, rd, rh⟩
    · exact absurd rfl hne
    · obtain ⟨mr, m, mh, e, _⟩ := findmin_node rl rr rd rh
      exact ⟨⟨mr, m, mh, e⟩, removemin_heightOk rl rr rd rh or⟩

theorem no_absent_promotion_witness :
    (HeightTrue (nil : AvlNode Int) ∧ HeightTrue (node nil (mk 3) (2 : Int) 2)) ∧
    ((bFactor (node nil (node nil (mk 3) 2 2) (1 : Int) 0) = some 2 →
      node nil (mk 3) (2 : Int) 2 ≠ nil ∧
        ∀ rl rr rd rh b, node nil (mk 3) (2 : Int) 2 = node rl rr rd rh →
          bFactor (node nil (mk 3) (2 : Int) 2) = some b → b < 0 → rl ≠ nil) ∧
    (bFactor (node nil (node nil (mk 3) 2 2) (1 : Int) 0) = some (-2) →
      (nil : AvlNode Int) ≠ nil ∧
        ∀ ll lr ld lh b, (nil : AvlNode Int) = node ll lr ld lh →
          bFactor (nil : AvlNode Int) = some b → b > 0 → lr ≠ nil) ∧
    (∃ t1, balance (node nil (node nil (mk 3) 2 2) (1 : Int) 0) = some t1 ∧ HeightOk t1) ∧
    (findmin (nil : AvlNode Int) = none ∧ removemin (nil : AvlNode Int) = none ∧
      remove (node nil nil (1 : Int) 0) 1 = some nil) ∧
    (node nil (mk 3) (2 : Int) 2 ≠ nil →
      (∃ mr m mh, findmin (node nil (mk 3) (2 : Int) 2) = some (node nil mr m mh)) ∧
      ∃ r1, removemin (node nil (mk 3) (2 : Int) 2) = some r1 ∧ HeightOk r1) ∧
    (∀ t : AvlNode Int, HeightOk t →
      (∃ t1, insert t 5 = some t1 ∧ HeightOk t1) ∧
      (∃ t1, remove t 5 = some t1 ∧ HeightOk t1))) :=
  ⟨⟨by decide, by decide⟩,
    no_absent_promotion nil (node nil (mk 3) 2 2) 1 5 0 (by decide) (by decide)⟩

end Safety

end SimpleAVL
